import Mathlib

/-
Verification of the Ngineer nodal-analysis engine core.

Shallow embedding conventions:
* `f64` values are modelled as rationals (`ℚ`); floating-point rounding is
  abstracted away, so `+`/`-` cancel exactly and comparisons are exact.
* Fallible Rust code (`anyhow::Result`, `?`) is modelled with `Except Err`.
* `HashMap<K, f64>` is modelled as an association list whose iteration order
  is the list order (the Rust iteration order is arbitrary but fixed within a
  call; the list order is one such fixed order).
* The gmatlib matrix kernel is not under src/ (only its FFI layer is), so the
  matrix type and its operations are modelled from the spec (§3, §4.1), as
  marked on each definition.
* Stateful residual closures (the Rust closures mutate nodes through
  `Rc<RefCell<_>>`) are modelled by threading an explicit state `σ` through
  every call, in the source's call order.
-/

namespace Ngineer

/-- Error values for every failure the embedded code can surface, mirroring
`NewtonRaphsonSolverError`, `DroppedNodeError`,
`FluxCalculationError::NodeRefsAlreadyDropped`, `EquationGenerationError`
and the gmatlib matrix failures. `outOfFuel` models exhaustion of the
recursion budget (in Rust, unbounded recursion on the call stack). -/
inductive Err where
  | negativeMargin
  | reachedIterationLimit
  | improperlyConstrainedSystem
  | matrixFormat
  | singularMatrix
  | shapeMismatch
  | droppedNode
  | nodeRefsAlreadyDropped
  | noNodesInSystem
  | nodeCountIntegerOverflow
  | outOfFuel
  deriving DecidableEq

/-- `HashMap<K, f64>` modelled as an association list. -/
abbrev AssocMap (K : Type) := List (K × ℚ)

/-- Lookup of the value bound to `k` (the first binding, matching the unique
binding of a hash map). -/
def getVal {K : Type} [DecidableEq K] : AssocMap K → K → Option ℚ
  | [], _ => none
  | (k', v) :: rest, k => if k = k' then some v else getVal rest k

/-- In-place `if let Some(v) = map.get_mut(k) { *v += d }`: add `d` to the
value bound to `k`, leaving the map unchanged when `k` is absent. -/
def adjustVal {K : Type} [DecidableEq K] : AssocMap K → K → ℚ → AssocMap K
  | [], _, _ => []
  | (k', v) :: rest, k, d =>
      if k = k' then (k', v + d) :: rest else (k', v) :: adjustVal rest k d

theorem adjustVal_map_fst {K : Type} [DecidableEq K] (m : AssocMap K) (k : K) (d : ℚ) :
    (adjustVal m k d).map Prod.fst = m.map Prod.fst := by
  induction m with
  | nil => rfl
  | cons p rest ih =>
      obtain ⟨k', v⟩ := p
      by_cases h : k = k' <;> simp [adjustVal, h, ih]

theorem adjustVal_length {K : Type} [DecidableEq K] (m : AssocMap K) (k : K) (d : ℚ) :
    (adjustVal m k d).length = m.length := by
  have := congrArg List.length (adjustVal_map_fst m k d)
  simpa using this

theorem adjustVal_cancel {K : Type} [DecidableEq K] (m : AssocMap K) (k : K) (d : ℚ) :
    adjustVal (adjustVal m k d) k (-d) = m := by
  induction m with
  | nil => rfl
  | cons p rest ih =>
      obtain ⟨k', v⟩ := p
      by_cases h : k = k'
      · simp [adjustVal, h]
      · simp [adjustVal, h, ih]

/-- Modelled from the spec: gmatlib's dense real matrix (§3, §4.1) — a fixed
shape `(rows, cols)` over a contiguous row-major buffer. The gmatlib crate's
implementation is not under src/, only its FFI layer. -/
structure Matrixq where
  rows : Nat
  cols : Nat
  data : List ℚ
  deriving DecidableEq

/-- Read entry `(i, j)`. gmatlib indexing is bounds-checked (a panic when out
of range); every use below is in range, and out-of-range reads return a junk
`0` rather than modelling the panic. -/
def Matrixq.get (m : Matrixq) (i j : Nat) : ℚ :=
  m.data.getD (i * m.cols + j) 0

/-- Write entry `(i, j)` (no-op when out of range; every use below is in
range). -/
def Matrixq.set (m : Matrixq) (i j : Nat) (v : ℚ) : Matrixq :=
  { m with data := m.data.set (i * m.cols + j) v }

/-- Modelled from the spec (§4.1): construction from a flat row-major
sequence with explicit column count, fallible on a shape mismatch. -/
def Matrixq.from_vec (cols : Nat) (v : List ℚ) : Except Err Matrixq :=
  if cols ≠ 0 ∧ v.length % cols = 0 then .ok ⟨v.length / cols, cols, v⟩
  else .error .matrixFormat

/-- Modelled from the spec (§4.1): a column of scalars becomes an `(n, 1)`
matrix. -/
def Matrixq.from_col_vec (v : List ℚ) : Matrixq :=
  ⟨v.length, 1, v⟩

/-- Modelled from the spec (§4.1): classical triple-loop matrix multiply,
requiring the inner dimensions to match. -/
def Matrixq.mul (a b : Matrixq) : Except Err Matrixq :=
  if a.cols = b.rows then
    .ok ⟨a.rows, b.cols,
      (List.range a.rows).flatMap (fun i =>
        (List.range b.cols).map (fun j =>
          ((List.range a.cols).map (fun k => a.get i k * b.get k j)).sum))⟩
  else .error .shapeMismatch

/-- Modelled from the spec (§4.1, step 3): the pivot row for column `k` is
the row at or below `k` whose column-`k` entry has the largest absolute
value (first such row on ties). -/
def rowArgmaxAbs (rs : List (List ℚ)) (k : Nat) : Nat :=
  (List.range rs.length).foldl
    (fun best p =>
      if k ≤ p ∧ |(rs.getD p []).getD k 0| > |(rs.getD best []).getD k 0| then p
      else best) k

/-- Modelled from the spec (§4.1, step 3): one Gauss–Jordan pivot step on an
augmented row list — partial pivoting, failure on a zero pivot, row swap,
pivot normalisation, and elimination of column `k` from every other row. -/
def elimColumn (rs : List (List ℚ)) (k : Nat) : Except Err (List (List ℚ)) :=
  let p := rowArgmaxAbs rs k
  let piv := (rs.getD p []).getD k 0
  if piv = 0 then .error .singularMatrix
  else
    let rowP := rs.getD p []
    let rowK := rs.getD k []
    let rs1 := (rs.set k rowP).set p rowK
    let pivRow := (rs1.getD k []).map (fun x => x / piv)
    let rs2 := rs1.set k pivRow
    .ok ((List.range rs2.length).map (fun r =>
      if r = k then pivRow
      else
        let row := rs2.getD r []
        let c := row.getD k 0
        List.zipWith (fun x y => x - c * y) row pivRow))

/-- Modelled from the spec (§4.1): run the pivot step on every column. -/
def gaussJordan (n : Nat) (rs : List (List ℚ)) : Except Err (List (List ℚ)) :=
  (List.range n).foldlM elimColumn rs

/-- Modelled from the spec (§4.1): in-place Gauss–Jordan inversion — check
squareness, augment with the identity, eliminate every column, and keep the
right half. -/
def Matrixq.try_inplace_invert (m : Matrixq) : Except Err Matrixq :=
  if m.rows = m.cols then do
    let n := m.rows
    let aug := (List.range n).map (fun i =>
      (List.range n).map (fun j => m.get i j) ++
      (List.range n).map (fun j => if i = j then (1 : ℚ) else 0))
    let red ← gaussJordan n aug
    .ok ⟨n, n, (List.range n).flatMap (fun i => (red.getD i []).drop n)⟩
  else .error .shapeMismatch

/-! ## geqslib: src/geqslib/src/newton.rs -/

/-- The finite-difference step `_DX_ = 0.001` of src/geqslib/src/newton.rs. -/
def _DX_ : ℚ := 1 / 1000

/-- The 1-D Newton–Raphson solver, translated from `newton_raphson` in
src/geqslib/src/newton.rs lines 31-60. In the rational model division by
zero yields `0` where Rust's `f64` would give an infinity or NaN; no claim
below depends on a zero derivative. -/
def newton_raphson (f : ℚ → Except Err ℚ) (guess margin : ℚ) (limit : Nat) :
    Except Err ℚ :=
  if margin ≤ 0 then .error .negativeMargin
  else
    match limit with
    | 0 => .error .reachedIterationLimit
    | limit' + 1 => do
        let y ← f guess
        let yph ← f (guess + _DX_)
        let y_prime := (yph - y) / _DX_
        let delta := y / y_prime
        if |y| ≤ margin ∧ delta ≤ margin then .ok guess
        else newton_raphson f (guess - delta) margin limit'
termination_by structural limit

/-- A residual closure of the multivariate solver: the Rust closures may
mutate shared state through `Rc<RefCell<_>>`, so the model threads an
explicit state `σ`. -/
abbrev ResFn (K σ : Type) := AssocMap K → σ → Except Err (ℚ × σ)

/-- A residual function with no side effects, lifted to `ResFn`. -/
def pureRes {K σ : Type} (f : AssocMap K → ℚ) : ResFn K σ :=
  fun m s => .ok (f m, s)

/-- The loop `for func in &f { let row = vec![func(guess)?; n]; ... }` of
newton.rs lines 127-132: each residual is evaluated once and its value is
replicated `n` times to seed a jacobian row. -/
def initialElements {K σ : Type} (n : Nat) :
    List (ResFn K σ) → AssocMap K → σ → Except Err (List ℚ × σ)
  | [], _, s => .ok ([], s)
  | f :: fs, g, s => do
      let (v, s1) ← f g s
      let (rest, s2) ← initialElements n fs g s1
      .ok (List.replicate n v ++ rest, s2)

/-- The inner loop `for i in 0..n { jacobian[(i, j)] = (f[i](guess)? -
jacobian[(i, j)]) / _DX_ }` of newton.rs lines 147-151, walking the
residual list with a running row index. -/
def correctRows {K σ : Type} (j : Nat) :
    List (ResFn K σ) → Nat → Matrixq → AssocMap K → σ → Except Err (Matrixq × σ)
  | [], _, jac, _, s => .ok (jac, s)
  | f :: fs, i, jac, g, s => do
      let (v, s1) ← f g s
      correctRows j fs (i + 1) (jac.set i j ((v - jac.get i j) / _DX_)) g s1

/-- The column loop of newton.rs lines 141-157: perturb `guess[var]` by
`_DX_`, recompute column `j`, then subtract `_DX_` again. -/
def correctColumns {K σ : Type} [DecidableEq K] (fs : List (ResFn K σ)) :
    List K → Nat → Matrixq → AssocMap K → σ →
    Except Err (Matrixq × AssocMap K × σ)
  | [], _, jac, g, s => .ok (jac, g, s)
  | var :: vars, j, jac, g, s => do
      let g1 := adjustVal g var _DX_
      let (jac1, s1) ← correctRows j fs 0 jac g1 s
      correctColumns fs vars (j + 1) jac1 (adjustVal g1 var (-_DX_)) s1

/-- Jacobian construction of one `multivariate_newton_raphson` iteration
(newton.rs lines 126-157): values `fᵢ(X)` seed the matrix, then every
column is corrected to the finite-difference quotient. Returns the
jacobian together with the guess map and state as left by the loop. -/
def mvnrJacobian {K σ : Type} [DecidableEq K]
    (fs : List (ResFn K σ)) (g : AssocMap K) (s : σ) :
    Except Err (Matrixq × AssocMap K × σ) := do
  let n := fs.length
  let (elems, s1) ← initialElements n fs g s
  let jac0 ← Matrixq.from_vec n elems
  correctColumns fs (g.map Prod.fst) 0 jac0 g s1

/-- The loop `for i in 0..n { y[i] = f[i](guess)? }` of newton.rs lines
162-166. -/
def evalAll {K σ : Type} :
    List (ResFn K σ) → AssocMap K → σ → Except Err (List ℚ × σ)
  | [], _, s => .ok ([], s)
  | f :: fs, g, s => do
      let (v, s1) ← f g s
      let (rest, s2) ← evalAll fs g s1
      .ok (v :: rest, s2)

/-- Sum of squares, `iter().map(|v| v.powi(2)).sum()`. -/
def sumSq (l : List ℚ) : ℚ := (l.map (fun v => v * v)).sum

/-- The measured quantities of one iteration (newton.rs lines 126-176):
the corrected jacobian, its inverse, the residual vector `y`, `error =
Σyᵢ²`, the step vector `deltas = J⁻¹·y` and `Σdeltaⱼ²`. The source then
compares `error` with `margin` and `sqrt(Σdeltaⱼ²)` with `margin`; since
`ℚ` has no square root, the model records `Σdeltaⱼ²` and the solver below
compares it with `margin²`, which is exactly the source's comparison for
the positive `margin` guaranteed by the entry guard. -/
def mvnrErrChange {K σ : Type} [DecidableEq K]
    (fs : List (ResFn K σ)) (g : AssocMap K) (s : σ) :
    Except Err (ℚ × ℚ × Matrixq × AssocMap K × σ) := do
  let (jac, g1, s1) ← mvnrJacobian fs g s
  let jinv ← jac.try_inplace_invert
  let (ys, s2) ← evalAll fs g1 s1
  let deltas ← jinv.mul (Matrixq.from_col_vec ys)
  .ok (sumSq ys, sumSq deltas.data, deltas, g1, s2)

/-- The update loop `for (i, var) in vars.iter().enumerate().take(n)` of
newton.rs lines 184-190: `guess[var] -= deltas[(i, 0)]`. -/
def applyDeltas {K : Type} [DecidableEq K] (deltas : Matrixq) :
    List K → Nat → AssocMap K → AssocMap K
  | [], _, g => g
  | var :: vars, i, g =>
      applyDeltas deltas vars (i + 1) (adjustVal g var (-(deltas.get i 0)))

/-- The multivariate Newton–Raphson solver, translated from
`multivariate_newton_raphson` in src/geqslib/src/newton.rs lines 104-192:
guard `margin`, guard `limit`, guard system size, then measure one
iteration, return the (restored) guess when both convergence measures pass,
and otherwise recurse on the updated guess with one fewer iteration. -/
def multivariate_newton_raphson {K σ : Type} [DecidableEq K]
    (fs : List (ResFn K σ)) (guess : AssocMap K) (margin : ℚ) (limit : Nat)
    (s : σ) : Except Err (AssocMap K × σ) :=
  if margin ≤ 0 then .error .negativeMargin
  else
    match limit with
    | 0 => .error .reachedIterationLimit
    | limit' + 1 =>
        if guess.length ≠ fs.length then .error .improperlyConstrainedSystem
        else do
          let (error, changeSq, deltas, g1, s1) ← mvnrErrChange fs guess s
          if error ≤ margin ∧ changeSq ≤ margin * margin then .ok (g1, s1)
          else
            multivariate_newton_raphson fs
              (applyDeltas deltas ((guess.map Prod.fst).take fs.length) 0 g1)
              margin limit' s1
termination_by structural limit

/-- The post-guard body of one `multivariate_newton_raphson` call at
remaining budget `limit' + 1`, as a standalone definition. -/
def mvnrIterate {K σ : Type} [DecidableEq K]
    (fs : List (ResFn K σ)) (guess : AssocMap K) (margin : ℚ) (limit' : Nat)
    (s : σ) : Except Err (AssocMap K × σ) := do
  let (error, changeSq, deltas, g1, s1) ← mvnrErrChange fs guess s
  if error ≤ margin ∧ changeSq ≤ margin * margin then .ok (g1, s1)
  else
    multivariate_newton_raphson fs
      (applyDeltas deltas ((guess.map Prod.fst).take fs.length) 0 g1)
      margin limit' s1

/-- The post-guard body of one `newton_raphson` call at remaining budget
`limit' + 1`, as a standalone definition. -/
def newtonIterate (f : ℚ → Except Err ℚ) (guess margin : ℚ) (limit' : Nat) :
    Except Err ℚ := do
  let y ← f guess
  let yph ← f (guess + _DX_)
  let y_prime := (yph - y) / _DX_
  let delta := y / y_prime
  if |y| ≤ margin ∧ delta ≤ margin then .ok guess
  else newton_raphson f (guess - delta) margin limit'

/-! ## neapolitan: src/neapolitan/src/lib.rs and flux_formulas.rs

Column vectors (`Matrix<f64>` of shape `(d, 1)`: potentials, gains, fluxes)
are modelled as `List ℚ`. Elementwise add/subtract require identical shape
(spec §3); gmatlib itself is not under src/, so the shape-mismatch failure is
modelled as `Err.shapeMismatch`. -/

/-- Modelled from the spec (§3): elementwise addition of two column vectors,
failing on a shape mismatch. -/
def vecAdd : List ℚ → List ℚ → Except Err (List ℚ)
  | [], [] => .ok []
  | x :: xs, y :: ys => do
      let rest ← vecAdd xs ys
      .ok ((x + y) :: rest)
  | _, _ => .error .shapeMismatch

/-- Modelled from the spec (§3): elementwise subtraction of two column
vectors, failing on a shape mismatch. -/
def vecSub : List ℚ → List ℚ → Except Err (List ℚ)
  | [], [] => .ok []
  | x :: xs, y :: ys => do
      let rest ← vecSub xs ys
      .ok ((x - y) :: rest)
  | _, _ => .error .shapeMismatch

/-- Scalar scaling of a column vector (`inplace_scale` / `Mul<f64>`). -/
def vecScale (c : ℚ) (xs : List ℚ) : List ℚ := xs.map (fun x => c * x)

/-- The closed set of flux calculation functions of
src/neapolitan/src/flux_formulas.rs, as tags selecting the behaviour
interpreted by `fluxEval` (the Rust side stores the function pointer). -/
inductive FluxRule where
  | normal_flux
  | observe_flux
  | constant_flux
  deriving DecidableEq

/-- `GenericElement` (lib.rs lines 89-98): gain as a column vector, the two
endpoint node indices (the Rust `Weak<RefCell<GenericNode>>` references,
modelled as indices into the world's node store), the flux rule and the
`drives_output` flag. Elements are immutable after construction, so sharing
an element by value models the Rust `Rc<GenericElement>` sharing. -/
structure Element where
  gain : List ℚ
  input_node : Nat
  output_node : Nat
  flux_calc : FluxRule
  drives_output : Bool
  deriving DecidableEq

/-- `GenericNode` (lib.rs lines 237-248): potential vector, incident element
lists and the locked flag. The phantom metadata field `M` carries no data in
any claim and is omitted. -/
structure GenericNode where
  potential : List ℚ
  inputs : List Element
  outputs : List Element
  is_locked : Bool
  deriving DecidableEq

/-- The shared mutable node store behind the `Rc<RefCell<GenericNode>>`
pointers. `none` models a node whose owner dropped it, so that a weak
reference to it no longer upgrades. -/
structure World where
  nodes : List (Option GenericNode)
  deriving DecidableEq

/-- Upgrade of a weak node reference: `none` when dropped or out of range. -/
def World.nodeAt (w : World) (i : Nat) : Option GenericNode :=
  w.nodes.getD i none

/-- Replace node `i` (no-op when absent). -/
def World.setNode (w : World) (i : Nat) (nd : GenericNode) : World :=
  ⟨w.nodes.set i (some nd)⟩

/-- Assign `node[i].potential = p` (the `sub.potential = ...` writes of
`observe_flux`). -/
def World.setPotential (w : World) (i : Nat) (p : List ℚ) : World :=
  match w.nodeAt i with
  | some nd => w.setNode i { nd with potential := p }
  | none => w

/-- Write one component: `node[i].potential[(c, 0)] = v` (the write-back of
the solver closures and of `solve`). -/
def World.setPotentialComp (w : World) (i c : Nat) (v : ℚ) : World :=
  match w.nodeAt i with
  | some nd => w.setNode i { nd with potential := nd.potential.set c v }
  | none => w

/-- One pending call of the mutually recursive flux evaluation: an element's
`get_flux`, the running `+=` loop over an element list, or a node's
`get_flux_discrepancy`. -/
inductive FluxCall where
  | flux (e : Element)
  | sumf (elems : List Element) (acc : List ℚ)
  | disc (i : Nat)

/-- Interpreter for the mutual recursion between `GenericElement::get_flux`
(lib.rs lines 207-217), the flux rules of flux_formulas.rs, and
`GenericNode::get_flux_discrepancy` (lib.rs lines 265-286). Every nested
call consumes one unit of `fuel`; in Rust the recursion depth is bounded
only by the call stack, and `Err.outOfFuel` models exhausting it.
`RefCell` borrows are modelled as always succeeding: no claim under
verification concerns the `AlreadyBorrowed` runtime aliasing failure. -/
def fluxEval (fuel : Nat) (c : FluxCall) (w : World) :
    Except Err (List ℚ × World) :=
  match fuel, c with
  | 0, _ => .error .outOfFuel
  | fuel' + 1, .flux e =>
      match w.nodeAt e.input_node, w.nodeAt e.output_node with
      | some inode, some onode =>
          match e.flux_calc with
          | .normal_flux => do
              let deltas ← vecSub inode.potential onode.potential
              .ok (vecScale (e.gain.headD 0) deltas, w)
          | .constant_flux => .ok (e.gain, w)
          | .observe_flux =>
              if e.drives_output then do
                let p ← vecAdd inode.potential e.gain
                let w1 := w.setPotential e.output_node p
                let (d, w2) ← fluxEval fuel' (.disc e.output_node) w1
                .ok (vecScale (-1) d, w2)
              else do
                let p ← vecSub onode.potential e.gain
                let w1 := w.setPotential e.input_node p
                let (d, w2) ← fluxEval fuel' (.disc e.input_node) w1
                .ok (vecScale (-1) d, w2)
      | _, _ => .error .nodeRefsAlreadyDropped
  | _ + 1, .sumf [] acc => .ok (acc, w)
  | fuel' + 1, .sumf (e :: rest) acc => do
      let (fx, w1) ← fluxEval fuel' (.flux e) w
      let acc1 ← vecAdd acc fx
      fluxEval fuel' (.sumf rest acc1) w1
  | fuel' + 1, .disc i =>
      match w.nodeAt i with
      | none => .error .droppedNode
      | some nd => do
          let zero := List.replicate nd.potential.length (0 : ℚ)
          let (ins, w1) ← fluxEval fuel' (.sumf nd.inputs zero) w
          let (outs, w2) ← fluxEval fuel' (.sumf nd.outputs zero) w1
          let d ← vecSub ins outs
          .ok (d, w2)
termination_by structural fuel

/-- `GenericElement::get_flux`: resolve both endpoints (failing with the
typed `FluxCalculationError::NodeRefsAlreadyDropped` error when either weak
reference is dead) and apply the element's flux rule. -/
def get_flux (fuel : Nat) (w : World) (e : Element) :
    Except Err (List ℚ × World) :=
  fluxEval fuel (.flux e) w

/-- `GenericNode::get_flux_discrepancy`: sum of incoming fluxes minus sum of
outgoing fluxes, starting from zero vectors of the node's potential shape,
threading world updates through every element evaluation in list order. -/
def get_flux_discrepancy (fuel : Nat) (w : World) (i : Nat) :
    Except Err (List ℚ × World) :=
  fluxEval fuel (.disc i) w

/-- `GenericNode::new` (lib.rs lines 253-263): potential `[1.0]`, empty
element lists, unlocked. -/
def GenericNode.new : GenericNode :=
  ⟨[1], [], [], false⟩

/-- `GenericElement::try_new` (lib.rs lines 143-184): package the gain,
attempt to upgrade both endpoints, then connect the element to the
requested endpoint lists (input endpoint first). On a dropped endpoint the
result is `DroppedNodeError` and the world is returned unchanged — the Rust
code reaches the `else` branch without having touched any node. -/
def try_new (gain : List ℚ) (input_node output_node : Nat)
    (flux_calc : FluxRule) (drives_output connect_to_input connect_to_output : Bool)
    (w : World) : (Except Err Element) × World :=
  let elem : Element := ⟨gain, input_node, output_node, flux_calc, drives_output⟩
  match w.nodeAt input_node, w.nodeAt output_node with
  | some _, some _ =>
      let w1 :=
        if connect_to_input then
          match w.nodeAt input_node with
          | some nd => w.setNode input_node { nd with outputs := nd.outputs ++ [elem] }
          | none => w
        else w
      let w2 :=
        if connect_to_output then
          match w1.nodeAt output_node with
          | some nd => w1.setNode output_node { nd with inputs := nd.inputs ++ [elem] }
          | none => w1
        else w1
      (.ok elem, w2)
  | _, _ => (.error .droppedNode, w)

/-- `set_node_potential` (lib.rs lines 542-554). -/
def set_node_potential (w : World) (i : Nat) (p : List ℚ) :
    (Except Err Unit) × World :=
  match w.nodeAt i with
  | some nd => (.ok (), w.setNode i { nd with potential := p })
  | none => (.error .droppedNode, w)

/-- `NodalAnalysisStudy` (lib.rs lines 306-314). The study owns its nodes
through `Rc`, so they are never dropped while the study lives; its node
table is therefore a plain list of nodes. The `Configure`/`Build` phases
are compile-time states restricting which of the operations below may be
called; the data is identical. -/
structure NodalAnalysisStudy where
  elements : List Element
  nodes : List GenericNode
  deriving DecidableEq

/-- The world seen through the study's `Rc` handles. -/
def worldOf (st : NodalAnalysisStudy) : World :=
  ⟨st.nodes.map some⟩

/-- `ground_node` (lib.rs lines 341-354): zero every component of the
node's potential and set its locked flag. The source indexes
`self.nodes[node]` and panics when out of range; the model is a no-op
there. -/
def ground_node (st : NodalAnalysisStudy) (node : Nat) : NodalAnalysisStudy :=
  match st.nodes.get? node with
  | some nd =>
      { st with
        nodes := st.nodes.set node
          { nd with potential := List.replicate nd.potential.length 0,
                    is_locked := true } }
  | none => st

/-- `ComponentIndex` (lib.rs lines 289-294): `(node, component)`. -/
abbrev CI := Nat × Nat

/-- The solution write-back loop shared by the solver closures (lib.rs
lines 429-434) and `solve` (lines 457-462): every `(node, component) → v`
binding is written into the node store. -/
def applySolution (x : AssocMap CI) (w : World) : World :=
  x.foldl (fun acc kv => acc.setPotentialComp kv.1.1 kv.1.2 kv.2) w

/-- One residual closure of `generate_system` (lib.rs lines 426-441) for
unlocked node `i`, component `j`: write the argument map into the node
potentials, evaluate node `i`'s flux discrepancy in the updated world, and
report component `j`. -/
def closureFor (fuel : Nat) (i j : Nat) : ResFn CI World :=
  fun x w =>
    match get_flux_discrepancy fuel (applySolution x w) i with
    | .ok (d, w2) => .ok (d.getD j 0, w2)
    | .error e => .error e

/-- Lines 389-393 of `generate_system`: the component count is the row count
of the first node's potential, and an empty study fails with
`NoNodesInSystem`. -/
def studyNumComponents (st : NodalAnalysisStudy) : Except Err Nat :=
  match st.nodes with
  | [] => .error .noNodesInSystem
  | nd :: _ => .ok nd.potential.length

/-- `generate_system` (lib.rs lines 384-445): guard the component count and
the `u32` overflow bound, then build — per unlocked node, per potential
component, in index order — the initial-guess map and the residual
closures. `fuel` is the recursion budget handed to every closure's flux
evaluation. -/
def generate_system (fuel : Nat) (st : NodalAnalysisStudy) :
    Except Err (List (ResFn CI World) × AssocMap CI) := do
  let num_components ← studyNumComponents st
  if st.nodes.length > 4294967295 ∨ num_components > 4294967295 then
    .error .nodeCountIntegerOverflow
  else
    let free := st.nodes.enum.filter (fun p => !p.2.is_locked)
    .ok (free.flatMap (fun p => p.2.potential.enum.map (fun q => closureFor fuel p.1 q.1)),
         free.flatMap (fun p => p.2.potential.enum.map (fun q => ((p.1, q.1), q.2))))

/-- `NodalAnalysisStudyResult` (lib.rs lines 296-301), with the two
`HashMap<u32, Vec<f64>>` maps in insertion order. -/
structure NodalAnalysisStudyResult where
  nodes : List (Nat × List ℚ)
  elements : List (Nat × List ℚ)
  deriving DecidableEq

/-- The element flux report loop of `solve` (lib.rs lines 466-472),
threading the world through each element's `get_flux`. -/
def collectFluxes (fuel : Nat) :
    List Element → Nat → World → Except Err (List (Nat × List ℚ) × World)
  | [], _, w => .ok ([], w)
  | e :: rest, idx, w => do
      let (fx, w1) ← get_flux fuel w e
      let (restRes, w2) ← collectFluxes fuel rest (idx + 1) w1
      .ok ((idx, fx) :: restRes, w2)

/-- `NodalAnalysisStudy::solve` (lib.rs lines 447-484): generate the system,
run `multivariate_newton_raphson` with margin `0.0001` and limit `1000`,
write the solution back into the node potentials, then report every
element's flux and every node's final potential. Returns the result
together with the final node store. -/
def solve (fuel : Nat) (st : NodalAnalysisStudy) :
    Except Err (NodalAnalysisStudyResult × World) := do
  let (f, guess) ← generate_system fuel st
  let (soln, w1) ← multivariate_newton_raphson f guess (1 / 10000) 1000 (worldOf st)
  let w2 := applySolution soln w1
  let (elemRes, w3) ← collectFluxes fuel st.elements 0 w2
  let nodeRes := w3.nodes.enum.map (fun p => (p.1, ((p.2.map GenericNode.potential).getD [])))
  .ok (⟨nodeRes, elemRes⟩, w3)

/-- Modelled from the spec: §3 and §4.4 describe `solve(margin, limit)` as
taking the solver tolerance and iteration budget as parameters. This
definition follows those words; `solve` above is the translation of the
source, which hard-codes `0.0001` and `1000`. -/
def solveWithTolerances (fuel : Nat) (st : NodalAnalysisStudy)
    (margin : ℚ) (limit : Nat) :
    Except Err (NodalAnalysisStudyResult × World) := do
  let (f, guess) ← generate_system fuel st
  let (soln, w1) ← multivariate_newton_raphson f guess margin limit (worldOf st)
  let w2 := applySolution soln w1
  let (elemRes, w3) ← collectFluxes fuel st.elements 0 w2
  let nodeRes := w3.nodes.enum.map (fun p => (p.1, ((p.2.map GenericNode.potential).getD [])))
  .ok (⟨nodeRes, elemRes⟩, w3)

/-- The node whose potential an `observe_flux` element overwrites: the
output endpoint when `drives_output`, the input endpoint otherwise. -/
def drivenNode (e : Element) : Nat :=
  if e.drives_output then e.output_node else e.input_node

/-- An element never overwrites node `g`'s potential: it is not an
`observe_flux` element driving `g`. Every element built by the bundled
constructors satisfies this for a grounded `g`, because `voltage_source`
(and `temperature_delta`) drive only a node that is unlocked at
construction time, grounding happens in the `Configure` phase before any
element exists, and grounding locks the node. -/
def elemSafe (g : Nat) (e : Element) : Prop :=
  e.flux_calc = .observe_flux → drivenNode e ≠ g

instance decElemSafe (g : Nat) (e : Element) : Decidable (elemSafe g e) :=
  if h : e.flux_calc = .observe_flux then
    if h2 : drivenNode e = g then isFalse (fun hs => (hs h) h2)
    else isTrue (fun _ => h2)
  else isTrue (fun hc => absurd hc h)

/-- `elemSafe` for every element a pending flux call can evaluate
directly. -/
def callSafe (g : Nat) : FluxCall → Prop
  | .flux e => elemSafe g e
  | .sumf elems _ => ∀ e ∈ elems, elemSafe g e
  | .disc _ => True

/-- `elemSafe` for every element reachable through the node store's
element lists. -/
def worldSafe (g : Nat) (w : World) : Prop :=
  ∀ j nd, w.nodeAt j = some nd →
    (∀ e ∈ nd.inputs, elemSafe g e) ∧ (∀ e ∈ nd.outputs, elemSafe g e)

/-- A residual closure preserves the state invariant `P` whenever it is
called on an argument map carrying the key list `keys0` (the solver only
ever calls its closures on maps with the initial guess's keys). -/
def keyPres {K σ : Type} (P : σ → Prop) (keys0 : List K) (f : ResFn K σ) : Prop :=
  ∀ x s v s', x.map Prod.fst = keys0 → P s → f x s = .ok (v, s') → P s'

/-! ## Fixtures for witnesses and counterexamples -/

/-- The one-variable residual `x ↦ x − 1/2` used by the C1 counterexample. -/
def exF : ResFn Nat Unit := fun m _ => .ok (((getVal m 0).getD 0) - 1 / 2, ())

/-- The one-variable residual `x ↦ x − 1` (root at the initial guess). -/
def exRoot : ResFn Nat Unit := fun m _ => .ok (((getVal m 0).getD 0) - 1, ())

/-- A pure one-variable residual `X ↦ X[0]`, used by the C2 witness. -/
def exH : AssocMap Nat → ℚ := fun m => (getVal m 0).getD 0

/-- The scalar residual `x ↦ 1/2 − x/100` of the C7 counterexample: a small
residual with a shallow negative slope, so the Newton step is a large
negative number. -/
def exG : ℚ → Except Err ℚ := fun x => .ok (1 / 2 - x / 100)

/-- A resistor-style element between witness nodes 1 and 0. -/
def eW : Element := ⟨[1], 1, 0, .normal_flux, false⟩

/-- Witness node 0: grounded (zero potential, locked). -/
def n0W : GenericNode := ⟨[0], [eW], [], true⟩

/-- Witness node 1: free, initial potential `[1]`. -/
def n1W : GenericNode := ⟨[1], [], [eW], false⟩

/-- The witness study: node 0 grounded, one proportional element from node 1
to node 0. -/
def stW : NodalAnalysisStudy := ⟨[eW], [n0W, n1W]⟩

/-- C3 witness world: two live nodes with potentials `[5]` and `[2]`. -/
def w3 : World := ⟨[some ⟨[5], [], [], false⟩, some ⟨[2], [], [], false⟩]⟩

/-- C3 witness element: proportional, gain `[3]`, from node 0 to node 1. -/
def e3 : Element := ⟨[3], 0, 1, .normal_flux, false⟩

/-- C4 witness world: two live nodes with potentials `[2]` and `[5]`. -/
def w4 : World := ⟨[some ⟨[2], [], [], false⟩, some ⟨[5], [], [], false⟩]⟩

/-- C4 witness element: observed, delta `[3]`, from node 0 to node 1,
driving the output node. -/
def e4 : Element := ⟨[3], 0, 1, .observe_flux, true⟩

/-- C8 witness world: node 0 dropped, node 1 alive. -/
def wD : World := ⟨[none, some GenericNode.new]⟩

/-- C8 witness element: its input endpoint is the dropped node 0. -/
def eD : Element := ⟨[1], 0, 1, .normal_flux, false⟩

/-! ## Helper lemmas -/

theorem except_bind_ok {ε α β : Type} (x : Except ε α) (f : α → Except ε β) (v : β) :
    (x >>= f) = .ok v ↔ ∃ a, x = .ok a ∧ f a = .ok v := by
  cases x <;> simp [Except.instMonad, Except.bind]

theorem correctColumns_guess {K σ : Type} [DecidableEq K] (fs : List (ResFn K σ)) :
    ∀ (vars : List K) (j : Nat) (jac : Matrixq) (g : AssocMap K) (s : σ)
      (jac' : Matrixq) (g' : AssocMap K) (s' : σ),
      correctColumns fs vars j jac g s = .ok (jac', g', s') → g' = g := by
  intro vars
  induction vars with
  | nil =>
      intro j jac g s jac' g' s' h
      simp [correctColumns] at h
      exact h.2.1.symm
  | cons var vars ih =>
      intro j jac g s jac' g' s' h
      simp only [correctColumns] at h
      rw [except_bind_ok] at h
      obtain ⟨⟨jac1, s1⟩, _, h2⟩ := h
      have := ih (j + 1) jac1 (adjustVal (adjustVal g var _DX_) var (-_DX_)) s1 jac' g' s' h2
      rwa [adjustVal_cancel] at this

theorem mvnrJacobian_guess {K σ : Type} [DecidableEq K]
    (fs : List (ResFn K σ)) (g : AssocMap K) (s : σ)
    (jac : Matrixq) (g1 : AssocMap K) (s1 : σ)
    (h : mvnrJacobian fs g s = .ok (jac, g1, s1)) : g1 = g := by
  simp only [mvnrJacobian] at h
  rw [except_bind_ok] at h
  obtain ⟨⟨elems, sa⟩, _, h2⟩ := h
  rw [except_bind_ok] at h2
  obtain ⟨jac0, _, h3⟩ := h2
  exact correctColumns_guess fs (g.map Prod.fst) 0 jac0 g sa jac g1 s1 h3

theorem mvnrErrChange_guess {K σ : Type} [DecidableEq K]
    (fs : List (ResFn K σ)) (g : AssocMap K) (s : σ)
    (error changeSq : ℚ) (deltas : Matrixq) (g1 : AssocMap K) (s1 : σ)
    (h : mvnrErrChange fs g s = .ok (error, changeSq, deltas, g1, s1)) : g1 = g := by
  simp only [mvnrErrChange] at h
  rw [except_bind_ok] at h
  obtain ⟨⟨jac, ga, sa⟩, hjac, h2⟩ := h
  rw [except_bind_ok] at h2
  obtain ⟨jinv, _, h3⟩ := h2
  rw [except_bind_ok] at h3
  obtain ⟨⟨ys, sb⟩, _, h4⟩ := h3
  rw [except_bind_ok] at h4
  obtain ⟨ds, _, h5⟩ := h4
  simp only [pure, Except.pure, Except.ok.injEq, Prod.mk.injEq] at h5
  obtain ⟨h6, h7, h8, h9, h10⟩ := h5
  subst h9
  exact mvnrJacobian_guess fs g s jac ga sa hjac

theorem getD_set_self {α : Type} (l : List α) (i : Nat) (a d : α)
    (h : i < l.length) : (l.set i a).getD i d = a := by
  induction l generalizing i with
  | nil => simp at h
  | cons x xs ih =>
      cases i with
      | zero => rfl
      | succ i' => exact ih i' (by simpa using h)

theorem getD_set_ne {α : Type} (l : List α) (i j : Nat) (a d : α)
    (h : i ≠ j) : (l.set i a).getD j d = l.getD j d := by
  induction l generalizing i j with
  | nil => rfl
  | cons x xs ih =>
      cases i with
      | zero => cases j with
          | zero => exact absurd rfl h
          | succ j' => rfl
      | succ i' => cases j with
          | zero => rfl
          | succ j' => exact ih i' j' (by omega)

theorem getD_lt_of_ne_default {α : Type} (l : List α) (i : Nat) (d : α)
    (h : l.getD i d ≠ d) : i < l.length := by
  by_contra hc
  exact h (List.getD_eq_default l d (by omega))

theorem vecSub_ok (xs ys : List ℚ) (h : xs.length = ys.length) :
    vecSub xs ys = .ok (List.zipWith (fun a b => a - b) xs ys) := by
  induction xs generalizing ys with
  | nil => cases ys with
      | nil => rfl
      | cons y ys => simp at h
  | cons x xs ih =>
      cases ys with
      | nil => simp at h
      | cons y ys =>
          simp only [vecSub, ih ys (by simpa using h), List.zipWith]
          rfl

theorem vecAdd_ok (xs ys : List ℚ) (h : xs.length = ys.length) :
    vecAdd xs ys = .ok (List.zipWith (fun a b => a + b) xs ys) := by
  induction xs generalizing ys with
  | nil => cases ys with
      | nil => rfl
      | cons y ys => simp at h
  | cons x xs ih =>
      cases ys with
      | nil => simp at h
      | cons y ys =>
          simp only [vecAdd, ih ys (by simpa using h), List.zipWith]
          rfl

theorem nodeAt_lt_length (w : World) (i : Nat) (nd : GenericNode)
    (h : w.nodeAt i = some nd) : i < w.nodes.length :=
  getD_lt_of_ne_default w.nodes i none (by simp [World.nodeAt] at h ⊢; simp [h])

theorem nodeAt_setNode_self (w : World) (i : Nat) (nd nd' : GenericNode)
    (h : w.nodeAt i = some nd') : (w.setNode i nd).nodeAt i = some nd := by
  have := nodeAt_lt_length w i nd' h
  simp only [World.nodeAt, World.setNode]
  exact getD_set_self w.nodes i (some nd) none (by simpa using this)

theorem nodeAt_setNode_ne (w : World) (i j : Nat) (nd : GenericNode)
    (h : i ≠ j) : (w.setNode i nd).nodeAt j = w.nodeAt j := by
  simp only [World.nodeAt, World.setNode]
  exact getD_set_ne w.nodes i j (some nd) none h

theorem nodeAt_setPotential_self (w : World) (i : Nat) (nd : GenericNode)
    (p : List ℚ) (h : w.nodeAt i = some nd) :
    (w.setPotential i p).nodeAt i = some { nd with potential := p } := by
  simp only [World.setPotential, h]
  exact nodeAt_setNode_self w i _ nd h

theorem Matrixq.rows_set (m : Matrixq) (i j : Nat) (v : ℚ) :
    (m.set i j v).rows = m.rows := rfl

theorem Matrixq.cols_set (m : Matrixq) (i j : Nat) (v : ℚ) :
    (m.set i j v).cols = m.cols := rfl

theorem Matrixq.data_length_set (m : Matrixq) (i j : Nat) (v : ℚ) :
    (m.set i j v).data.length = m.data.length := by
  simp [Matrixq.set]

theorem linearIndex_inj (cols i1 j1 i2 j2 : Nat) (hj1 : j1 < cols)
    (hj2 : j2 < cols) (h : i1 * cols + j1 = i2 * cols + j2) :
    i1 = i2 ∧ j1 = j2 := by
  have hcols : 0 < cols := by omega
  have hmod : (cols * i1 + j1) % cols = (cols * i2 + j2) % cols := by
    rw [Nat.mul_comm cols i1, Nat.mul_comm cols i2, h]
  rw [Nat.mul_add_mod, Nat.mul_add_mod, Nat.mod_eq_of_lt hj1,
    Nat.mod_eq_of_lt hj2] at hmod
  subst hmod
  refine ⟨?_, rfl⟩
  exact Nat.eq_of_mul_eq_mul_right hcols (Nat.add_right_cancel h)

theorem linearIndex_lt (rows cols i j : Nat) (hi : i < rows) (hj : j < cols) :
    i * cols + j < rows * cols := by
  have h1 : i * cols + j < (i + 1) * cols := by
    have : (i + 1) * cols = i * cols + cols := by ring
    omega
  have h2 : (i + 1) * cols ≤ rows * cols :=
    Nat.mul_le_mul_right cols (by omega)
  omega

theorem Matrixq.get_set_self (m : Matrixq) (i j : Nat) (v : ℚ)
    (hlt : i * m.cols + j < m.data.length) :
    (m.set i j v).get i j = v :=
  getD_set_self m.data (i * m.cols + j) v 0 hlt

theorem Matrixq.get_set_ne (m : Matrixq) (i j i' j' : Nat) (v : ℚ)
    (hj : j < m.cols) (hj' : j' < m.cols) (hne : ¬(i = i' ∧ j = j')) :
    (m.set i j v).get i' j' = m.get i' j' := by
  refine getD_set_ne m.data _ _ v 0 (fun heq => hne ?_)
  exact linearIndex_inj m.cols i j i' j' hj hj' heq

theorem correctRows_pure {K σ : Type} [DecidableEq K] (j : Nat)
    (fs' : List (AssocMap K → ℚ)) :
    ∀ (i0 : Nat) (jac : Matrixq) (g : AssocMap K) (s : σ),
      jac.data.length = jac.rows * jac.cols → j < jac.cols →
      i0 + fs'.length ≤ jac.rows →
      ∃ jacOut,
        correctRows j (fs'.map (pureRes (σ := σ))) i0 jac g s = .ok (jacOut, s)
        ∧ jacOut.rows = jac.rows ∧ jacOut.cols = jac.cols
        ∧ jacOut.data.length = jac.data.length
        ∧ ∀ i' j', i' < jac.rows → j' < jac.cols →
            jacOut.get i' j'
              = if i0 ≤ i' ∧ i' < i0 + fs'.length ∧ j' = j
                then ((fs'.getD (i' - i0) (fun _ => 0)) g - jac.get i' j') / _DX_
                else jac.get i' j' := by
  induction fs' with
  | nil =>
      intro i0 jac g s hdata hj hi
      refine ⟨jac, rfl, rfl, rfl, rfl, ?_⟩
      intro i' j' hi' hj'
      rw [if_neg (by simp only [List.length_nil]; omega)]
  | cons f1 fs' ih =>
      intro i0 jac g s hdata hj hi
      have hi0r : i0 < jac.rows := by
        simp only [List.length_cons] at hi; omega
      have hset : i0 * jac.cols + j < jac.data.length := by
        rw [hdata]; exact linearIndex_lt jac.rows jac.cols i0 j hi0r hj
      set jac1 := jac.set i0 j ((f1 g - jac.get i0 j) / _DX_) with hjac1
      obtain ⟨jacOut, heq, hr, hc, hd, hget⟩ :=
        ih (i0 + 1) jac1 g s
          (by simp [hjac1, Matrixq.data_length_set, Matrixq.rows_set,
                Matrixq.cols_set, hdata])
          (by simpa [hjac1, Matrixq.cols_set] using hj)
          (by simp only [hjac1, Matrixq.rows_set]
              simp only [List.length_cons] at hi; omega)
      refine ⟨jacOut, ?_, ?_, ?_, ?_, ?_⟩
      · simp only [List.map_cons, correctRows, pureRes, Except.instMonad,
          Except.bind]
        exact heq
      · simpa [hjac1, Matrixq.rows_set] using hr
      · simpa [hjac1, Matrixq.cols_set] using hc
      · simpa [hjac1, Matrixq.data_length_set] using hd
      · intro i' j' hi' hj'
        have hmain := hget i' j'
          (by simpa [hjac1, Matrixq.rows_set] using hi')
          (by simpa [hjac1, Matrixq.cols_set] using hj')
        by_cases hcond : i0 ≤ i' ∧ i' < i0 + (f1 :: fs').length ∧ j' = j
        · rw [if_pos hcond]
          obtain ⟨h1, h2, h3⟩ := hcond
          by_cases hfirst : i' = i0
          · rw [hmain, if_neg (by omega)]
            have hv : jac1.get i' j' = (f1 g - jac.get i' j') / _DX_ := by
              rw [hjac1, hfirst, h3]
              exact Matrixq.get_set_self jac i0 j _ hset
            rw [hv, hfirst, Nat.sub_self, List.getD_cons_zero]
          · have h2' : i' < (i0 + 1) + fs'.length := by
              simp only [List.length_cons] at h2; omega
            rw [hmain, if_pos ⟨by omega, h2', h3⟩]
            have hne : jac1.get i' j' = jac.get i' j' := by
              rw [hjac1]
              exact Matrixq.get_set_ne jac i0 j i' j' _ hj hj'
                (fun hco => hfirst hco.1.symm)
            rw [hne]
            have hidx : i' - i0 = (i' - (i0 + 1)) + 1 := by omega
            rw [hidx, List.getD_cons_succ]
        · rw [if_neg hcond, hmain, if_neg (fun hcontra => hcond
            ⟨by omega, by simp only [List.length_cons]; omega, hcontra.2.2⟩)]
          rw [hjac1]
          refine Matrixq.get_set_ne jac i0 j i' j' _ hj hj' ?_
          intro hcontra
          exact hcond ⟨by omega,
            by simp only [List.length_cons]; omega, hcontra.2.symm⟩

theorem correctColumns_pure {K σ : Type} [DecidableEq K] [Inhabited K]
    (fs' : List (AssocMap K → ℚ)) :
    ∀ (vars : List K) (j0 : Nat) (jac : Matrixq) (g : AssocMap K) (s : σ),
      jac.data.length = jac.rows * jac.cols →
      j0 + vars.length ≤ jac.cols →
      fs'.length ≤ jac.rows →
      ∃ jacOut,
        correctColumns (fs'.map (pureRes (σ := σ))) vars j0 jac g s
          = .ok (jacOut, g, s)
        ∧ jacOut.rows = jac.rows ∧ jacOut.cols = jac.cols
        ∧ jacOut.data.length = jac.data.length
        ∧ ∀ i' j', i' < jac.rows → j' < jac.cols →
            jacOut.get i' j'
              = if j0 ≤ j' ∧ j' < j0 + vars.length ∧ i' < fs'.length
                then ((fs'.getD i' (fun _ => 0))
                        (adjustVal g (vars.getD (j' - j0) default) _DX_)
                      - jac.get i' j') / _DX_
                else jac.get i' j' := by
  intro vars
  induction vars with
  | nil =>
      intro j0 jac g s hdata hjv hfr
      refine ⟨jac, rfl, rfl, rfl, rfl, ?_⟩
      intro i' j' hi' hj'
      rw [if_neg (by simp only [List.length_nil]; omega)]
  | cons var rest ih =>
      intro j0 jac g s hdata hjv hfr
      have hj0 : j0 < jac.cols := by
        simp only [List.length_cons] at hjv; omega
      obtain ⟨jac1, heq1, hr1, hc1, hd1, hget1⟩ :=
        correctRows_pure j0 fs' 0 jac (adjustVal g var _DX_) s hdata hj0
          (by omega)
      obtain ⟨jacOut, heq2, hr2, hc2, hd2, hget2⟩ :=
        ih (j0 + 1) jac1 g s (by rw [hd1, hr1, hc1]; exact hdata)
          (by rw [hc1]; simp only [List.length_cons] at hjv; omega)
          (by rw [hr1]; exact hfr)
      refine ⟨jacOut, ?_, by rw [hr2, hr1], by rw [hc2, hc1],
        by rw [hd2, hd1], ?_⟩
      · simp only [correctColumns, heq1, Except.instMonad, Except.bind]
        rw [adjustVal_cancel]
        exact heq2
      · intro i' j' hi' hj'
        have hm2 := hget2 i' j' (by rw [hr1]; exact hi') (by rw [hc1]; exact hj')
        have hm1 := hget1 i' j' hi' hj'
        simp only [Nat.zero_add, Nat.sub_zero, Nat.zero_le, true_and] at hm1
        by_cases hcond : j0 ≤ j' ∧ j' < j0 + (var :: rest).length ∧ i' < fs'.length
        · rw [if_pos hcond]
          obtain ⟨h1, h2, h3⟩ := hcond
          by_cases hfirst : j' = j0
          · rw [hm2, if_neg (by omega)]
            rw [hm1, if_pos ⟨h3, hfirst⟩, hfirst,
              Nat.sub_self, List.getD_cons_zero]
          · have h2' : j' < (j0 + 1) + rest.length := by
              simp only [List.length_cons] at h2; omega
            rw [hm2, if_pos ⟨by omega, h2', h3⟩]
            have hj1 : jac1.get i' j' = jac.get i' j' := by
              rw [hm1, if_neg (fun hco => hfirst hco.2)]
            rw [hj1]
            have hidx : j' - j0 = (j' - (j0 + 1)) + 1 := by omega
            rw [hidx, List.getD_cons_succ]
        · rw [if_neg hcond, hm2, if_neg (fun hco => hcond
            ⟨by omega, by simp only [List.length_cons]; omega, hco.2.2⟩)]
          rw [hm1, if_neg (fun hco => hcond
            ⟨by omega, by simp only [List.length_cons]; omega, hco.1⟩)]

theorem initialElements_pure {K σ : Type} (n : Nat)
    (fs' : List (AssocMap K → ℚ)) (g : AssocMap K) (s : σ) :
    initialElements n (fs'.map (pureRes (σ := σ))) g s
      = .ok ((fs'.map (fun f => List.replicate n (f g))).flatten, s) := by
  induction fs' with
  | nil => rfl
  | cons f fs' ih =>
      simp only [List.map_cons, initialElements, pureRes, ih,
        Except.instMonad, Except.bind, List.flatten_cons]

theorem flattenReplicate_getD {K : Type} (n : Nat) (g : AssocMap K) :
    ∀ (fs' : List (AssocMap K → ℚ)) (i j : Nat), i < fs'.length → j < n →
      ((fs'.map (fun f => List.replicate n (f g))).flatten).getD (i * n + j) 0
        = (fs'.getD i (fun _ => 0)) g := by
  intro fs'
  induction fs' with
  | nil => intro i j hi hj; simp at hi
  | cons f fs' ih =>
      intro i j hi hj
      simp only [List.map_cons, List.flatten_cons]
      cases i with
      | zero =>
          rw [Nat.zero_mul, Nat.zero_add]
          rw [List.getD_append (List.replicate n (f g))
            ((List.map (fun f => List.replicate n (f g)) fs').flatten) 0 j
            (by simp only [List.length_replicate]; exact hj)]
          rw [List.getD_eq_getElem _ _
            (by simp only [List.length_replicate]; exact hj)]
          rw [List.getElem_replicate, List.getD_cons_zero]
      | succ i' =>
          have hidx : (i' + 1) * n + j
              = (List.replicate n (f g)).length + (i' * n + j) := by
            simp only [List.length_replicate]; ring
          rw [hidx, List.getD_append_right _ _ _ _ (by omega),
            Nat.add_sub_cancel_left]
          exact ih i' j (by simpa using hi) hj

theorem get?_set_self {α : Type} (l : List α) (i : Nat) (a : α)
    (h : i < l.length) : (l.set i a).get? i = some a := by
  induction l generalizing i with
  | nil => simp at h
  | cons x xs ih =>
      cases i with
      | zero => rfl
      | succ i' => exact ih i' (by simpa using h)

theorem nodeAt_setPotential_ne (w : World) (i j : Nat) (p : List ℚ)
    (h : i ≠ j) : (w.setPotential i p).nodeAt j = w.nodeAt j := by
  rw [World.setPotential]
  cases hni : w.nodeAt i with
  | none => rfl
  | some nd => exact nodeAt_setNode_ne w i j _ h

theorem nodeAt_setPotentialComp_ne (w : World) (i c j : Nat) (v : ℚ)
    (h : i ≠ j) : (w.setPotentialComp i c v).nodeAt j = w.nodeAt j := by
  rw [World.setPotentialComp]
  cases hni : w.nodeAt i with
  | none => rfl
  | some nd => exact nodeAt_setNode_ne w i j _ h

theorem worldSafe_setPotential (g : Nat) (w : World) (i : Nat) (p : List ℚ)
    (hs : worldSafe g w) : worldSafe g (w.setPotential i p) := by
  intro j nd hj
  rw [World.setPotential] at hj
  cases hni : w.nodeAt i with
  | none => rw [hni] at hj; exact hs j nd hj
  | some nd0 =>
      rw [hni] at hj
      by_cases hij : i = j
      · rw [← hij] at hj
        rw [nodeAt_setNode_self w i _ nd0 hni] at hj
        injection hj with hj'
        subst hj'
        exact hs i nd0 hni
      · rw [nodeAt_setNode_ne w i j _ hij] at hj
        exact hs j nd hj

theorem worldSafe_setPotentialComp (g : Nat) (w : World) (i c : Nat) (v : ℚ)
    (hs : worldSafe g w) : worldSafe g (w.setPotentialComp i c v) := by
  intro j nd hj
  rw [World.setPotentialComp] at hj
  cases hni : w.nodeAt i with
  | none => rw [hni] at hj; exact hs j nd hj
  | some nd0 =>
      rw [hni] at hj
      by_cases hij : i = j
      · rw [← hij] at hj
        rw [nodeAt_setNode_self w i _ nd0 hni] at hj
        injection hj with hj'
        subst hj'
        exact hs i nd0 hni
      · rw [nodeAt_setNode_ne w i j _ hij] at hj
        exact hs j nd hj

theorem applySolution_preserve (g : Nat) (X : Option GenericNode) :
    ∀ (x : AssocMap CI) (w : World), (∀ p ∈ x, p.1.1 ≠ g) →
      w.nodeAt g = X → worldSafe g w →
      (applySolution x w).nodeAt g = X ∧ worldSafe g (applySolution x w) := by
  intro x
  induction x with
  | nil => intro w _ hX hs; exact ⟨hX, hs⟩
  | cons p rest ih =>
      intro w hne hX hs
      have hstep := ih (w.setPotentialComp p.1.1 p.1.2 p.2)
        (fun q hq => hne q (List.mem_cons_of_mem p hq))
        (by rw [nodeAt_setPotentialComp_ne w _ _ _ _
              (hne p (List.mem_cons_self p rest))]
            exact hX)
        (worldSafe_setPotentialComp g w _ _ _ hs)
      simpa [applySolution, List.foldl_cons] using hstep

theorem fluxEval_preserve (g : Nat) (X : Option GenericNode) :
    ∀ (fuel : Nat) (c : FluxCall) (w : World) (r : List ℚ) (w' : World),
      worldSafe g w → callSafe g c → w.nodeAt g = X →
      fluxEval fuel c w = .ok (r, w') →
      w'.nodeAt g = X ∧ worldSafe g w' := by
  intro fuel
  induction fuel with
  | zero =>
      intro c w r w' _ _ _ h
      simp [fluxEval] at h
  | succ fuel ih =>
      intro c w r w' hsafe hcall hX h
      match c with
      | .flux e =>
          simp only [fluxEval] at h
          cases hin : w.nodeAt e.input_node with
          | none =>
              cases hout : w.nodeAt e.output_node <;>
                simp only [hin, hout] at h <;>
                exact Except.noConfusion h
          | some inode =>
              cases hout : w.nodeAt e.output_node with
              | none =>
                  simp only [hin, hout] at h
                  exact Except.noConfusion h
              | some onode =>
                  cases hrule : e.flux_calc with
                  | normal_flux =>
                      simp only [hin, hout, hrule] at h
                      rw [except_bind_ok] at h
                      obtain ⟨d, _, h2⟩ := h
                      have : w' = w := by
                        injection h2 with h3
                        exact (congrArg Prod.snd h3).symm
                      rw [this]
                      exact ⟨hX, hsafe⟩
                  | constant_flux =>
                      simp only [hin, hout, hrule] at h
                      have : w' = w := by
                        injection h with h3
                        exact (congrArg Prod.snd h3).symm
                      rw [this]
                      exact ⟨hX, hsafe⟩
                  | observe_flux =>
                      simp only [hin, hout, hrule] at h
                      have hdng : drivenNode e ≠ g := hcall hrule
                      by_cases hdrv : e.drives_output = true
                      · rw [if_pos hdrv] at h
                        rw [except_bind_ok] at h
                        obtain ⟨p, _, h2⟩ := h
                        rw [except_bind_ok] at h2
                        obtain ⟨⟨d, w2⟩, hd, h3⟩ := h2
                        have hw' : w' = w2 := by
                          injection h3 with h4
                          exact (congrArg Prod.snd h4).symm
                        rw [hw']
                        have hog : e.output_node ≠ g := by
                          rw [drivenNode, if_pos hdrv] at hdng; exact hdng
                        exact ih (.disc e.output_node)
                          (w.setPotential e.output_node p) d w2
                          (worldSafe_setPotential g w _ _ hsafe) trivial
                          (by rw [nodeAt_setPotential_ne w _ _ _ hog]; exact hX)
                          hd
                      · rw [if_neg hdrv] at h
                        rw [except_bind_ok] at h
                        obtain ⟨p, _, h2⟩ := h
                        rw [except_bind_ok] at h2
                        obtain ⟨⟨d, w2⟩, hd, h3⟩ := h2
                        have hw' : w' = w2 := by
                          injection h3 with h4
                          exact (congrArg Prod.snd h4).symm
                        rw [hw']
                        have hog : e.input_node ≠ g := by
                          rw [drivenNode, if_neg hdrv] at hdng; exact hdng
                        exact ih (.disc e.input_node)
                          (w.setPotential e.input_node p) d w2
                          (worldSafe_setPotential g w _ _ hsafe) trivial
                          (by rw [nodeAt_setPotential_ne w _ _ _ hog]; exact hX)
                          hd
      | .sumf elems acc =>
          cases elems with
          | nil =>
              simp only [fluxEval] at h
              have : w' = w := by
                injection h with h3
                exact (congrArg Prod.snd h3).symm
              rw [this]
              exact ⟨hX, hsafe⟩
          | cons e rest =>
              simp only [fluxEval] at h
              rw [except_bind_ok] at h
              obtain ⟨⟨fx, w1⟩, hfx, h2⟩ := h
              rw [except_bind_ok] at h2
              obtain ⟨acc1, _, h3⟩ := h2
              obtain ⟨hX1, hs1⟩ := ih (.flux e) w fx w1 hsafe
                (hcall e (List.mem_cons_self e rest)) hX hfx
              exact ih (.sumf rest acc1) w1 r w' hs1
                (fun e' he' => hcall e' (List.mem_cons_of_mem e he')) hX1 h3
      | .disc i =>
          simp only [fluxEval] at h
          cases hni : w.nodeAt i with
          | none => rw [hni] at h; exact absurd h (by simp)
          | some nd =>
              rw [hni] at h
              rw [except_bind_ok] at h
              obtain ⟨⟨ins, w1⟩, hins, h2⟩ := h
              rw [except_bind_ok] at h2
              obtain ⟨⟨outs, w2⟩, houts, h3⟩ := h2
              rw [except_bind_ok] at h3
              obtain ⟨d, _, h4⟩ := h3
              have hw' : w' = w2 := by
                injection h4 with h5
                exact (congrArg Prod.snd h5).symm
              rw [hw']
              obtain ⟨hX1, hs1⟩ := ih (.sumf nd.inputs
                  (List.replicate nd.potential.length 0)) w ins w1 hsafe
                (fun e' he' => (hsafe i nd hni).1 e' he') hX hins
              exact ih (.sumf nd.outputs
                  (List.replicate nd.potential.length 0)) w1 outs w2 hs1
                (fun e' he' => (hsafe i nd hni).2 e' he') hX1 houts

theorem applyDeltas_map_fst {K : Type} [DecidableEq K] (deltas : Matrixq) :
    ∀ (vars : List K) (i : Nat) (g : AssocMap K),
      (applyDeltas deltas vars i g).map Prod.fst = g.map Prod.fst := by
  intro vars
  induction vars with
  | nil => intro i g; rfl
  | cons var rest ih =>
      intro i g
      rw [applyDeltas, ih, adjustVal_map_fst]

theorem initialElements_preserve {K σ : Type} (P : σ → Prop) (keys0 : List K) :
    ∀ (fs : List (ResFn K σ)), (∀ f ∈ fs, keyPres P keys0 f) →
    ∀ (n : Nat) (g : AssocMap K) (s : σ) (v : List ℚ) (s' : σ),
      g.map Prod.fst = keys0 → P s →
      initialElements n fs g s = .ok (v, s') → P s' := by
  intro fs
  induction fs with
  | nil =>
      intro _ n g s v s' _ hP h
      simp only [initialElements] at h
      injection h with h1
      simp only [Prod.mk.injEq] at h1
      rw [← h1.2]
      exact hP
  | cons f fs ih =>
      intro hfs n g s v s' hkeys hP h
      simp only [initialElements] at h
      rw [except_bind_ok] at h
      obtain ⟨⟨v1, s1⟩, h1, h2⟩ := h
      rw [except_bind_ok] at h2
      obtain ⟨⟨rest, s2⟩, h3, h4⟩ := h2
      have hP1 := hfs f (List.mem_cons_self f fs) g s v1 s1 hkeys hP h1
      have hP2 := ih (fun f' hf' => hfs f' (List.mem_cons_of_mem f hf'))
        n g s1 rest s2 hkeys hP1 h3
      injection h4 with h5
      simp only [Prod.mk.injEq] at h5
      rw [← h5.2]
      exact hP2

theorem evalAll_preserve {K σ : Type} (P : σ → Prop) (keys0 : List K) :
    ∀ (fs : List (ResFn K σ)), (∀ f ∈ fs, keyPres P keys0 f) →
    ∀ (g : AssocMap K) (s : σ) (v : List ℚ) (s' : σ),
      g.map Prod.fst = keys0 → P s →
      evalAll fs g s = .ok (v, s') → P s' := by
  intro fs
  induction fs with
  | nil =>
      intro _ g s v s' _ hP h
      simp only [evalAll] at h
      injection h with h1
      simp only [Prod.mk.injEq] at h1
      rw [← h1.2]
      exact hP
  | cons f fs ih =>
      intro hfs g s v s' hkeys hP h
      simp only [evalAll] at h
      rw [except_bind_ok] at h
      obtain ⟨⟨v1, s1⟩, h1, h2⟩ := h
      rw [except_bind_ok] at h2
      obtain ⟨⟨rest, s2⟩, h3, h4⟩ := h2
      have hP1 := hfs f (List.mem_cons_self f fs) g s v1 s1 hkeys hP h1
      have hP2 := ih (fun f' hf' => hfs f' (List.mem_cons_of_mem f hf'))
        g s1 rest s2 hkeys hP1 h3
      injection h4 with h5
      simp only [Prod.mk.injEq] at h5
      rw [← h5.2]
      exact hP2

theorem correctRows_preserve {K σ : Type} (P : σ → Prop) (keys0 : List K)
    (j : Nat) :
    ∀ (fs : List (ResFn K σ)), (∀ f ∈ fs, keyPres P keys0 f) →
    ∀ (i : Nat) (jac : Matrixq) (g : AssocMap K) (s : σ) (out : Matrixq)
      (s' : σ),
      g.map Prod.fst = keys0 → P s →
      correctRows j fs i jac g s = .ok (out, s') → P s' := by
  intro fs
  induction fs with
  | nil =>
      intro _ i jac g s out s' _ hP h
      simp only [correctRows] at h
      injection h with h1
      simp only [Prod.mk.injEq] at h1
      rw [← h1.2]
      exact hP
  | cons f fs ih =>
      intro hfs i jac g s out s' hkeys hP h
      simp only [correctRows] at h
      rw [except_bind_ok] at h
      obtain ⟨⟨v1, s1⟩, h1, h2⟩ := h
      have hP1 := hfs f (List.mem_cons_self f fs) g s v1 s1 hkeys hP h1
      exact ih (fun f' hf' => hfs f' (List.mem_cons_of_mem f hf'))
        (i + 1) _ g s1 out s' hkeys hP1 h2

theorem correctColumns_preserve {K σ : Type} [DecidableEq K] (P : σ → Prop)
    (keys0 : List K) (fs : List (ResFn K σ))
    (hfs : ∀ f ∈ fs, keyPres P keys0 f) :
    ∀ (vars : List K) (j : Nat) (jac : Matrixq) (g : AssocMap K) (s : σ)
      (out : Matrixq) (g' : AssocMap K) (s' : σ),
      g.map Prod.fst = keys0 → P s →
      correctColumns fs vars j jac g s = .ok (out, g', s') → P s' := by
  intro vars
  induction vars with
  | nil =>
      intro j jac g s out g' s' _ hP h
      simp only [correctColumns] at h
      injection h with h1
      simp only [Prod.mk.injEq] at h1
      rw [← h1.2.2]
      exact hP
  | cons var rest ih =>
      intro j jac g s out g' s' hkeys hP h
      simp only [correctColumns] at h
      rw [except_bind_ok] at h
      obtain ⟨⟨jac1, s1⟩, h1, h2⟩ := h
      have hkeys1 : (adjustVal g var _DX_).map Prod.fst = keys0 := by
        rw [adjustVal_map_fst]; exact hkeys
      have hP1 := correctRows_preserve P keys0 j fs hfs 0 jac
        (adjustVal g var _DX_) s jac1 s1 hkeys1 hP h1
      have hkeys2 : (adjustVal (adjustVal g var _DX_) var (-_DX_)).map Prod.fst
          = keys0 := by
        rw [adjustVal_map_fst, adjustVal_map_fst]; exact hkeys
      exact ih (j + 1) jac1 _ s1 out g' s' hkeys2 hP1 h2

theorem mvnrErrChange_preserve {K σ : Type} [DecidableEq K] (P : σ → Prop)
    (keys0 : List K) (fs : List (ResFn K σ))
    (hfs : ∀ f ∈ fs, keyPres P keys0 f)
    (g : AssocMap K) (s : σ) (error changeSq : ℚ) (deltas : Matrixq)
    (g1 : AssocMap K) (s1 : σ)
    (hkeys : g.map Prod.fst = keys0) (hP : P s)
    (h : mvnrErrChange fs g s = .ok (error, changeSq, deltas, g1, s1)) :
    P s1 := by
  simp only [mvnrErrChange] at h
  rw [except_bind_ok] at h
  obtain ⟨⟨jac, ga, sa⟩, hjac, h2⟩ := h
  have hga : ga = g := by
    simp only [mvnrJacobian] at hjac
    rw [except_bind_ok] at hjac
    obtain ⟨⟨elems, sb⟩, _, hjac2⟩ := hjac
    rw [except_bind_ok] at hjac2
    obtain ⟨jac0, _, hjac3⟩ := hjac2
    exact correctColumns_guess fs (g.map Prod.fst) 0 jac0 g sb jac ga sa hjac3
  have hPa : P sa := by
    simp only [mvnrJacobian] at hjac
    rw [except_bind_ok] at hjac
    obtain ⟨⟨elems, sb⟩, hinit, hjac2⟩ := hjac
    rw [except_bind_ok] at hjac2
    obtain ⟨jac0, _, hjac3⟩ := hjac2
    have hPb := initialElements_preserve P keys0 fs hfs fs.length g s elems sb
      hkeys hP hinit
    exact correctColumns_preserve P keys0 fs hfs (g.map Prod.fst) 0 jac0 g sb
      jac ga sa hkeys hPb hjac3
  rw [except_bind_ok] at h2
  obtain ⟨jinv, _, h3⟩ := h2
  rw [except_bind_ok] at h3
  obtain ⟨⟨ys, sc⟩, hys, h4⟩ := h3
  have hPc : P sc := by
    refine evalAll_preserve P keys0 fs hfs ga sa ys sc ?_ hPa hys
    rw [hga]; exact hkeys
  rw [except_bind_ok] at h4
  obtain ⟨ds, _, h5⟩ := h4
  simp only [pure, Except.pure, Except.ok.injEq, Prod.mk.injEq] at h5
  rw [← h5.2.2.2.2]
  exact hPc

theorem mvnr_preserve {K σ : Type} [DecidableEq K] (P : σ → Prop)
    (keys0 : List K) (fs : List (ResFn K σ))
    (hfs : ∀ f ∈ fs, keyPres P keys0 f) :
    ∀ (limit : Nat) (gm : AssocMap K) (margin : ℚ) (s : σ)
      (res : AssocMap K) (s' : σ),
      gm.map Prod.fst = keys0 → P s →
      multivariate_newton_raphson fs gm margin limit s = .ok (res, s') →
      P s' ∧ res.map Prod.fst = keys0 := by
  intro limit
  induction limit with
  | zero =>
      intro gm margin s res s' _ _ h
      rw [multivariate_newton_raphson.eq_def] at h
      by_cases hm : margin ≤ 0
      · rw [if_pos hm] at h; exact Except.noConfusion h
      · rw [if_neg hm] at h; exact Except.noConfusion h
  | succ l ih =>
      intro gm margin s res s' hkeys hP h
      rw [multivariate_newton_raphson] at h
      by_cases hm : margin ≤ 0
      · rw [if_pos hm] at h; exact Except.noConfusion h
      rw [if_neg hm] at h
      by_cases hlen : gm.length ≠ fs.length
      · rw [if_pos hlen] at h; exact Except.noConfusion h
      rw [if_neg hlen] at h
      rw [except_bind_ok] at h
      obtain ⟨⟨error, changeSq, deltas, g1, s1⟩, hstep, h2⟩ := h
      have hg1 : g1 = gm :=
        mvnrErrChange_guess fs gm s error changeSq deltas g1 s1 hstep
      have hP1 : P s1 :=
        mvnrErrChange_preserve P keys0 fs hfs gm s error changeSq deltas g1 s1
          hkeys hP hstep
      have h2' : (if error ≤ margin ∧ changeSq ≤ margin * margin
          then Except.ok (g1, s1)
          else multivariate_newton_raphson fs
            (applyDeltas deltas ((gm.map Prod.fst).take fs.length) 0 g1)
            margin l s1) = Except.ok (res, s') := h2
      by_cases hc : error ≤ margin ∧ changeSq ≤ margin * margin
      · rw [if_pos hc] at h2'
        injection h2' with h3
        simp only [Prod.mk.injEq] at h3
        rw [← h3.1, ← h3.2, hg1]
        exact ⟨hP1, hkeys⟩
      · rw [if_neg hc] at h2'
        refine ih (applyDeltas deltas ((gm.map Prod.fst).take fs.length) 0 g1)
          margin s1 res s' ?_ hP1 h2'
        rw [applyDeltas_map_fst, hg1]
        exact hkeys

theorem worldOf_nodeAt (st : NodalAnalysisStudy) (i : Nat) :
    (worldOf st).nodeAt i = st.nodes.get? i := by
  suffices h : ∀ (l : List GenericNode) (i : Nat),
      ((l.map some).getD i none) = l.get? i from h st.nodes i
  intro l
  induction l with
  | nil => intro i; cases i <;> rfl
  | cons a l ih =>
      intro i
      cases i with
      | zero => rfl
      | succ i' => exact ih i'

theorem worldSafe_worldOf (g : Nat) (st : NodalAnalysisStudy)
    (hsafeNodes : ∀ nd' ∈ st.nodes,
      (∀ e ∈ nd'.inputs, elemSafe g e) ∧ (∀ e ∈ nd'.outputs, elemSafe g e)) :
    worldSafe g (worldOf st) := by
  intro j nd hj
  rw [worldOf_nodeAt] at hj
  exact hsafeNodes nd (List.get?_mem hj)

theorem collectFluxes_preserve (g : Nat) (X : Option GenericNode) (fuel : Nat) :
    ∀ (elems : List Element) (idx : Nat) (w : World)
      (out : List (Nat × List ℚ)) (w' : World),
      worldSafe g w → (∀ e ∈ elems, elemSafe g e) → w.nodeAt g = X →
      collectFluxes fuel elems idx w = .ok (out, w') →
      w'.nodeAt g = X ∧ worldSafe g w' := by
  intro elems
  induction elems with
  | nil =>
      intro idx w out w' hs _ hX h
      simp only [collectFluxes] at h
      injection h with h1
      simp only [Prod.mk.injEq] at h1
      rw [← h1.2]
      exact ⟨hX, hs⟩
  | cons e rest ih =>
      intro idx w out w' hs hse hX h
      simp only [collectFluxes] at h
      rw [except_bind_ok] at h
      obtain ⟨⟨fx, w1⟩, hfx, h2⟩ := h
      rw [except_bind_ok] at h2
      obtain ⟨⟨rr, w2⟩, hrr, h3⟩ := h2
      rw [get_flux] at hfx
      obtain ⟨hX1, hs1⟩ := fluxEval_preserve g X fuel (.flux e) w fx w1 hs
        (hse e (List.mem_cons_self e rest)) hX hfx
      obtain ⟨hX2, hs2⟩ := ih (idx + 1) w1 rr w2 hs1
        (fun e' he' => hse e' (List.mem_cons_of_mem e he')) hX1 hrr
      injection h3 with h4
      simp only [Prod.mk.injEq] at h4
      rw [← h4.2]
      exact ⟨hX2, hs2⟩

theorem closureFor_keyPres (g : Nat) (X : Option GenericNode) (fuel i j : Nat)
    (keys0 : List CI) (hk : ∀ k ∈ keys0, k.1 ≠ g) :
    keyPres (fun w => w.nodeAt g = X ∧ worldSafe g w) keys0
      (closureFor fuel i j) := by
  intro x w v w' hxkeys hP h
  simp only [closureFor] at h
  obtain ⟨hXw, hsw⟩ := hP
  obtain ⟨hX1, hs1⟩ := applySolution_preserve g X x w
    (fun p hp => hk p.1 (by rw [← hxkeys]; exact List.mem_map_of_mem Prod.fst hp))
    hXw hsw
  cases hd : get_flux_discrepancy fuel (applySolution x w) i with
  | error er => rw [hd] at h; exact Except.noConfusion h
  | ok r2 =>
      rw [hd] at h
      obtain ⟨d, w2⟩ := r2
      rw [get_flux_discrepancy] at hd
      obtain ⟨hX2, hs2⟩ := fluxEval_preserve g X fuel (.disc i)
        (applySolution x w) d w2 hs1 trivial hX1 hd
      injection h with h4
      simp only [Prod.mk.injEq] at h4
      rw [← h4.2]
      exact ⟨hX2, hs2⟩

theorem generate_system_inv (fuel : Nat) (st : NodalAnalysisStudy)
    (fsr : List (ResFn CI World)) (guess : AssocMap CI)
    (h : generate_system fuel st = .ok (fsr, guess)) :
    (∀ p ∈ guess, ∃ nd, st.nodes.get? p.1.1 = some nd ∧ nd.is_locked = false)
  ∧ (∀ f ∈ fsr, ∃ i j, f = closureFor fuel i j) := by
  simp only [generate_system] at h
  rw [except_bind_ok] at h
  obtain ⟨num, hnum, h2⟩ := h
  by_cases hov : st.nodes.length > 4294967295 ∨ num > 4294967295
  · rw [if_pos hov] at h2; exact Except.noConfusion h2
  rw [if_neg hov] at h2
  injection h2 with h3
  simp only [Prod.mk.injEq] at h3
  obtain ⟨hf, hg⟩ := h3
  constructor
  · intro p hp
    rw [← hg, List.mem_flatMap] at hp
    obtain ⟨q, hq, hpq⟩ := hp
    rw [List.mem_filter] at hq
    obtain ⟨hqe, hql⟩ := hq
    rw [List.mem_map] at hpq
    obtain ⟨r, _, hpr⟩ := hpq
    refine ⟨q.2, ?_, ?_⟩
    · have hget : st.nodes.get? q.1 = some q.2 := by
        rw [List.get?_eq_getElem?]
        exact List.mem_enum_iff_getElem?.mp hqe
      rw [← hpr]
      exact hget
    · simpa using hql
  · intro f hf'
    rw [← hf, List.mem_flatMap] at hf'
    obtain ⟨q, _, hfq⟩ := hf'
    rw [List.mem_map] at hfq
    obtain ⟨r, _, hfr⟩ := hfq
    exact ⟨q.1, r.1, hfr.symm⟩

/-! ## Claim theorems -/

/-- C10: `NodalAnalysisStudy::solve` takes no tolerance or iteration-limit
arguments; every call runs `multivariate_newton_raphson` with margin fixed
at `0.0001` and iteration limit fixed at `1000`, i.e. it coincides with the
spec's parametrised `solve(margin, limit)` at exactly those two values. -/
theorem c10_solve_fixed_tolerances (fuel : Nat) (st : NodalAnalysisStudy) :
    solve fuel st = solveWithTolerances fuel st (1 / 10000) 1000 := rfl

/-- C6: both solvers reject `margin ≤ 0` with `NegativeMargin` and (for a
positive margin) `limit = 0` with the iteration-limit error;
`multivariate_newton_raphson` additionally rejects a residual count that
differs from the guess size with `ImproperlyConstrainedSystem`; and when
`margin > 0`, `limit ≥ 1` and the sizes match, every entry guard passes and
each call proceeds to its post-guard iteration body. -/
theorem c6_entry_error_guards {K σ : Type} [DecidableEq K]
    (f1 : ℚ → Except Err ℚ) (fs : List (ResFn K σ)) (x0 : ℚ) (g : AssocMap K)
    (margin : ℚ) (limit : Nat) (s : σ) :
    (margin ≤ 0 →
      newton_raphson f1 x0 margin limit = .error .negativeMargin ∧
      multivariate_newton_raphson fs g margin limit s = .error .negativeMargin)
  ∧ (0 < margin → limit = 0 →
      newton_raphson f1 x0 margin limit = .error .reachedIterationLimit ∧
      multivariate_newton_raphson fs g margin limit s = .error .reachedIterationLimit)
  ∧ (0 < margin → 0 < limit → g.length ≠ fs.length →
      multivariate_newton_raphson fs g margin limit s = .error .improperlyConstrainedSystem)
  ∧ (0 < margin → ∀ l', limit = l' + 1 →
      newton_raphson f1 x0 margin limit = newtonIterate f1 x0 margin l' ∧
      (g.length = fs.length →
        multivariate_newton_raphson fs g margin limit s = mvnrIterate fs g margin l' s)) := by
  refine ⟨?_, ?_, ?_, ?_⟩
  · intro h
    constructor
    · rw [newton_raphson.eq_def, if_pos h]
    · rw [multivariate_newton_raphson.eq_def, if_pos h]
  · intro hm hl
    subst hl
    have h := not_le.mpr hm
    constructor
    · rw [newton_raphson.eq_def, if_neg h]
    · rw [multivariate_newton_raphson.eq_def, if_neg h]
  · intro hm hl hne
    have h := not_le.mpr hm
    obtain ⟨l', rfl⟩ : ∃ l', limit = l' + 1 :=
      ⟨limit - 1, by omega⟩
    rw [multivariate_newton_raphson, if_neg h, if_pos hne]
  · intro hm l' hl
    subst hl
    have h := not_le.mpr hm
    constructor
    · rw [newton_raphson.eq_def, if_neg h]
      rfl
    · intro hlen
      rw [multivariate_newton_raphson, if_neg h, if_neg (by simp [hlen])]
      rfl

/-- C7 (amended): one step of the 1-D solver with `margin > 0` and budget
`l + 1` computes `delta = f(x) / ((f(x + h) − f(x)) / h)` with `h = 1e-3`
and returns the current guess exactly when `|f(x)| ≤ margin` and the signed
step satisfies `delta ≤ margin` (no absolute value on the step); otherwise
it recurses on `x − delta` with budget `l`. -/
theorem c7_scalar_newton_step (f : ℚ → Except Err ℚ) (guess margin y yph : ℚ)
    (l : Nat) (hm : 0 < margin) (hy : f guess = .ok y)
    (hyph : f (guess + _DX_) = .ok yph) :
    (|y| ≤ margin ∧ y / ((yph - y) / _DX_) ≤ margin →
       newton_raphson f guess margin (l + 1) = .ok guess)
  ∧ (¬(|y| ≤ margin ∧ y / ((yph - y) / _DX_) ≤ margin) →
       newton_raphson f guess margin (l + 1)
         = newton_raphson f (guess - y / ((yph - y) / _DX_)) margin l) := by
  have h := not_le.mpr hm
  have hbody : newton_raphson f guess margin (l + 1)
      = newtonIterate f guess margin l := by
    rw [newton_raphson.eq_def, if_neg h]
    rfl
  rw [hbody]
  unfold newtonIterate
  rw [hy, hyph]
  constructor
  · intro hc
    simp only [Except.instMonad, Except.bind, if_pos hc]
  · intro hc
    simp only [Except.instMonad, Except.bind, if_neg hc]

/-- C1 (amended): with `margin > 0`, budget `limit + 1` and matching sizes,
one iteration of `multivariate_newton_raphson` measures `error = Σfᵢ(X)²`
and `Σdeltaⱼ²`, returns the current (exactly restored) guess precisely when
`error ≤ margin` and the Euclidean step norm `sqrt(Σdeltaⱼ²)` is at most
`margin` (encoded exactly as `Σdeltaⱼ² ≤ margin²`), and otherwise applies
`X[key_j] -= delta[j]` for every key and recurses with the budget
decremented. -/
theorem c1_mvnr_iteration {K σ : Type} [DecidableEq K]
    (fs : List (ResFn K σ)) (g : AssocMap K) (margin : ℚ) (l : Nat) (s : σ)
    (error changeSq : ℚ) (deltas : Matrixq) (g1 : AssocMap K) (s1 : σ)
    (hm : 0 < margin) (hlen : g.length = fs.length)
    (hstep : mvnrErrChange fs g s = .ok (error, changeSq, deltas, g1, s1)) :
    g1 = g
  ∧ (error ≤ margin ∧ changeSq ≤ margin * margin →
      multivariate_newton_raphson fs g margin (l + 1) s = .ok (g1, s1))
  ∧ (¬(error ≤ margin ∧ changeSq ≤ margin * margin) →
      multivariate_newton_raphson fs g margin (l + 1) s
        = multivariate_newton_raphson fs
            (applyDeltas deltas ((g.map Prod.fst).take fs.length) 0 g1)
            margin l s1) := by
  have h := not_le.mpr hm
  have hbody : multivariate_newton_raphson fs g margin (l + 1) s
      = mvnrIterate fs g margin l s := by
    rw [multivariate_newton_raphson, if_neg h, if_neg (by simp [hlen])]
    rfl
  refine ⟨mvnrErrChange_guess fs g s error changeSq deltas g1 s1 hstep, ?_, ?_⟩
  · intro hc
    rw [hbody]
    unfold mvnrIterate
    rw [hstep]
    simp only [Except.instMonad, Except.bind, if_pos hc]
  · intro hc
    rw [hbody]
    unfold mvnrIterate
    rw [hstep]
    simp only [Except.instMonad, Except.bind, if_neg hc]

/-- C3: for resolvable endpoint nodes whose potentials both have length `d`
and a nonempty gain vector, the proportional rule `normal_flux` returns —
with the world untouched — the column vector of length `d` whose `k`-th
entry is `(in.potential[k] − out.potential[k]) * gain[0]`. -/
theorem c3_normal_flux (fuel : Nat) (w : World) (e : Element)
    (inode onode : GenericNode) (d : Nat)
    (hrule : e.flux_calc = .normal_flux)
    (hin : w.nodeAt e.input_node = some inode)
    (hon : w.nodeAt e.output_node = some onode)
    (hdi : inode.potential.length = d) (hdo : onode.potential.length = d)
    (hg : 0 < e.gain.length) :
    ∃ v, get_flux (fuel + 1) w e = .ok (v, w) ∧ v.length = d ∧
      ∀ k, k < d →
        v.getD k 0
          = (inode.potential.getD k 0 - onode.potential.getD k 0) * e.gain.headD 0 := by
  have hsub := vecSub_ok inode.potential onode.potential (hdi.trans hdo.symm)
  refine ⟨vecScale (e.gain.headD 0) (List.zipWith (fun a b => a - b) inode.potential onode.potential), ?_, ?_, ?_⟩
  · rw [get_flux, fluxEval]
    simp only [hin, hon, hrule, hsub, Except.instMonad, Except.bind]
  · simp [vecScale, hdi, hdo]
  · intro k hk
    have hkl : k < (vecScale (e.gain.headD 0)
        (List.zipWith (fun a b => a - b) inode.potential onode.potential)).length := by
      simp [vecScale, hdi, hdo]; omega
    rw [List.getD_eq_getElem _ _ hkl]
    simp only [vecScale, List.getElem_map, List.getElem_zipWith]
    rw [List.getD_eq_getElem _ _ (by omega : k < inode.potential.length),
        List.getD_eq_getElem _ _ (by omega : k < onode.potential.length)]
    ring

/-- C4: an `observe_flux` element with resolvable endpoints first writes the
driven node's potential — `out.potential = in.potential + delta` when
`drives_output`, else `in.potential = out.potential − delta` — and then
returns the negation of the driven node's flux discrepancy as computed in
the updated world. -/
theorem c4_observe_flux (fuel : Nat) (w : World) (e : Element)
    (inode onode : GenericNode)
    (hrule : e.flux_calc = .observe_flux)
    (hin : w.nodeAt e.input_node = some inode)
    (hon : w.nodeAt e.output_node = some onode) :
    (e.drives_output = true → ∀ p, vecAdd inode.potential e.gain = .ok p →
      (w.setPotential e.output_node p).nodeAt e.output_node
          = some { onode with potential := p }
      ∧ get_flux (fuel + 1) w e
          = (get_flux_discrepancy fuel (w.setPotential e.output_node p) e.output_node).map
              (fun r => (vecScale (-1) r.1, r.2)))
  ∧ (e.drives_output = false → ∀ p, vecSub onode.potential e.gain = .ok p →
      (w.setPotential e.input_node p).nodeAt e.input_node
          = some { inode with potential := p }
      ∧ get_flux (fuel + 1) w e
          = (get_flux_discrepancy fuel (w.setPotential e.input_node p) e.input_node).map
              (fun r => (vecScale (-1) r.1, r.2))) := by
  constructor
  · intro hdrv p hp
    refine ⟨nodeAt_setPotential_self w e.output_node onode p hon, ?_⟩
    rw [get_flux, fluxEval, get_flux_discrepancy]
    simp only [hin, hon, hrule, hdrv, hp, if_pos rfl, Except.instMonad, Except.bind]
    cases fluxEval fuel (.disc e.output_node) (w.setPotential e.output_node p) with
    | error er => rfl
    | ok r => rfl
  · intro hdrv p hp
    refine ⟨nodeAt_setPotential_self w e.input_node inode p hin, ?_⟩
    rw [get_flux, fluxEval, get_flux_discrepancy]
    simp only [hin, hon, hrule, hdrv, hp, Bool.false_eq_true, if_false,
      Except.instMonad, Except.bind]
    cases fluxEval fuel (.disc e.input_node) (w.setPotential e.input_node p) with
    | error er => rfl
    | ok r => rfl

/-- C2: the Jacobian of one `multivariate_newton_raphson` iteration (for
side-effect-free residuals) has `J[i, j] = (fᵢ(X with X[key_j] += h) −
fᵢ(X)) / h` with `h = _DX_ = 1e-3`, where `key_j` is the `j`-th key in the
guess map's iteration order — and the perturbation loop hands back exactly
the original guess map and state: every column's `+= h` is undone by `-= h`
on the same key before the next column starts, which in the exact rational
model restores the exact pre-image value. -/
theorem c2_jacobian_finite_difference {K σ : Type} [DecidableEq K] [Inhabited K]
    (fs' : List (AssocMap K → ℚ)) (g : AssocMap K) (s : σ)
    (hn : 0 < fs'.length) (hlen : g.length = fs'.length) :
    _DX_ = 1 / 1000
  ∧ ∃ jac, mvnrJacobian (fs'.map (pureRes (σ := σ))) g s = .ok (jac, g, s)
      ∧ jac.rows = fs'.length ∧ jac.cols = fs'.length
      ∧ ∀ i j, i < fs'.length → j < fs'.length →
          jac.get i j
            = ((fs'.getD i (fun _ => 0))
                 (adjustVal g ((g.map Prod.fst).getD j default) _DX_)
               - (fs'.getD i (fun _ => 0)) g) / _DX_ := by
  refine ⟨rfl, ?_⟩
  have hflatlen : ∀ (l : List (AssocMap K → ℚ)),
      ((l.map (fun f => List.replicate fs'.length (f g))).flatten).length
        = l.length * fs'.length := by
    intro l
    induction l with
    | nil => simp
    | cons a l ih =>
        simp only [List.map_cons, List.flatten_cons, List.length_append,
          List.length_replicate, List.length_cons, ih]
        ring
  set flat := (fs'.map (fun f => List.replicate fs'.length (f g))).flatten
    with hflat
  have hfv : Matrixq.from_vec fs'.length flat
      = .ok ⟨fs'.length, fs'.length, flat⟩ := by
    rw [Matrixq.from_vec, if_pos ⟨by omega,
      by rw [hflatlen fs']; exact Nat.mul_mod_left _ _⟩]
    have hdiv : flat.length / fs'.length = fs'.length := by
      rw [hflatlen fs']
      exact Nat.mul_div_cancel_left fs'.length hn
    rw [hdiv]
  obtain ⟨jacOut, heqC, hrC, hcC, hdC, hgetC⟩ :=
    correctColumns_pure fs' (g.map Prod.fst) 0
      ⟨fs'.length, fs'.length, flat⟩ g s
      (hflatlen fs')
      (by simp [List.length_map, hlen])
      (le_refl _)
  refine ⟨jacOut, ?_, by rw [hrC], by rw [hcC], ?_⟩
  · unfold mvnrJacobian
    simp only [List.length_map]
    rw [initialElements_pure]
    simp only [Except.instMonad, Except.bind]
    rw [hfv]
    exact heqC
  · intro i j hi hj
    have h := hgetC i j hi hj
    rw [if_pos ⟨Nat.zero_le j,
      by simp only [Nat.zero_add, List.length_map, hlen]; omega, hi⟩] at h
    rw [Nat.sub_zero] at h
    have hbase : (⟨fs'.length, fs'.length, flat⟩ : Matrixq).get i j
        = (fs'.getD i (fun _ => 0)) g := by
      show flat.getD (i * fs'.length + j) 0 = _
      exact flattenReplicate_getD fs'.length g fs' i j hi hj
    rw [hbase] at h
    exact h

/-- C2 witness: the Jacobian theorem applied to the one-variable residual
`X ↦ X[0]` at the guess `{0 ↦ 2}`. -/
theorem c2_jacobian_finite_difference_witness :
    _DX_ = 1 / 1000
  ∧ ∃ jac, mvnrJacobian ([exH].map (pureRes (σ := Unit)))
        [((0 : Nat), (2 : ℚ))] () = .ok (jac, [(0, 2)], ())
      ∧ jac.rows = 1 ∧ jac.cols = 1
      ∧ ∀ i j, i < 1 → j < 1 →
          jac.get i j
            = (([exH].getD i (fun _ => 0))
                 (adjustVal [(0, 2)]
                   (([((0 : Nat), (2 : ℚ))].map Prod.fst).getD j default) _DX_)
               - ([exH].getD i (fun _ => 0)) [(0, 2)]) / _DX_ :=
  c2_jacobian_finite_difference [exH] [((0 : Nat), (2 : ℚ))] ()
    (by decide) rfl

/-- C8 (amended): `GenericElement::try_new` fails with the `DroppedNodeError`
value exactly when at least one endpoint weak reference cannot be resolved,
and in that case no node's element lists are modified (the world is returned
unchanged); `GenericElement::get_flux` on an element with a dropped endpoint
fails with the typed `FluxCalculationError::NodeRefsAlreadyDropped` error
rather than computing a flux. -/
theorem c8_dropped_node (gain : List ℚ) (i o : Nat) (r : FluxRule)
    (dr ci co : Bool) (w : World) (fuel : Nat) (e : Element) :
    ((try_new gain i o r dr ci co w).1 = .error .droppedNode
       ↔ (w.nodeAt i = none ∨ w.nodeAt o = none))
  ∧ ((w.nodeAt i = none ∨ w.nodeAt o = none) →
       (try_new gain i o r dr ci co w).2 = w)
  ∧ ((w.nodeAt e.input_node = none ∨ w.nodeAt e.output_node = none) →
       get_flux (fuel + 1) w e = .error .nodeRefsAlreadyDropped) := by
  refine ⟨?_, ?_, ?_⟩
  · rw [try_new]
    cases h1 : w.nodeAt i <;> cases h2 : w.nodeAt o <;> simp
  · intro hdrop
    rw [try_new]
    cases h1 : w.nodeAt i <;> cases h2 : w.nodeAt o <;> simp_all
  · intro hdrop
    rw [get_flux, fluxEval]
    cases h1 : w.nodeAt e.input_node <;> cases h2 : w.nodeAt e.output_node <;>
      simp_all

/-- C9 (amended): every node returned by `GenericNode::new` has potential
equal to the one-element all-ones vector `[1.0]` (length 1, irrespective of
the study dimension), empty element lists and `locked = false`; grounding a
study node replaces its potential by the all-zero vector of its own length
and sets `locked = true`. -/
theorem c9_fresh_node_and_grounding :
    (GenericNode.new.potential = [1]
      ∧ GenericNode.new.inputs = []
      ∧ GenericNode.new.outputs = []
      ∧ GenericNode.new.is_locked = false)
  ∧ (∀ (st : NodalAnalysisStudy) (i : Nat) (nd : GenericNode),
      st.nodes.get? i = some nd →
      (ground_node st i).nodes.get? i
        = some { nd with potential := List.replicate nd.potential.length 0,
                         is_locked := true }) := by
  refine ⟨⟨rfl, rfl, rfl, rfl⟩, ?_⟩
  intro st i nd h
  rw [ground_node, h]
  exact get?_set_self st.nodes i _ (List.get?_eq_some.mp h).1

/-- C5: grounding a study node zeroes its potential componentwise and sets
its locked flag; a locked node never contributes a key to the solver's
guess map (it is not among the unknowns, so neither the Newton closures nor
the write-back touch it); and `solve` returns a world in which the node is
entirely unchanged. The two `elemSafe` hypotheses record that no
`observe_flux` element drives the grounded node — which holds for every
study built through the public API, because grounding happens in the
`Configure` phase before elements exist, grounding locks the node, and the
bundled observed-element constructors (`voltage_source`,
`temperature_delta`) only ever drive a node that is unlocked at
construction time. -/
theorem c5_grounded_node (fuel : Nat) (st : NodalAnalysisStudy) (g : Nat)
    (nd : GenericNode) (hnode : st.nodes.get? g = some nd)
    (hlocked : nd.is_locked = true)
    (hsafeElems : ∀ e ∈ st.elements, elemSafe g e)
    (hsafeNodes : ∀ nd' ∈ st.nodes,
      (∀ e ∈ nd'.inputs, elemSafe g e) ∧ (∀ e ∈ nd'.outputs, elemSafe g e)) :
    (∀ (st0 : NodalAnalysisStudy) (nd0 : GenericNode),
       st0.nodes.get? g = some nd0 →
       (ground_node st0 g).nodes.get? g
         = some { nd0 with potential := List.replicate nd0.potential.length 0,
                           is_locked := true })
  ∧ (∀ fsr guess, generate_system fuel st = .ok (fsr, guess) →
       ∀ p ∈ guess, p.1.1 ≠ g)
  ∧ (∀ res w', solve fuel st = .ok (res, w') → w'.nodeAt g = some nd) := by
  have hkeyne : ∀ fsr guess, generate_system fuel st = .ok (fsr, guess) →
      ∀ p ∈ guess, p.1.1 ≠ g := by
    intro fsr guess hgen p hp hpg
    obtain ⟨nd', hnd', hnl⟩ := (generate_system_inv fuel st fsr guess hgen).1 p hp
    rw [hpg, hnode] at hnd'
    injection hnd' with hnd''
    rw [← hnd''] at hnl
    rw [hlocked] at hnl
    exact Bool.noConfusion hnl
  refine ⟨?_, hkeyne, ?_⟩
  · intro st0 nd0 h0
    rw [ground_node, h0]
    exact get?_set_self st0.nodes g _ (List.get?_eq_some.mp h0).1
  · intro res w' hsolve
    simp only [solve] at hsolve
    rw [except_bind_ok] at hsolve
    obtain ⟨⟨fsr, guess⟩, hgen, h2⟩ := hsolve
    rw [except_bind_ok] at h2
    obtain ⟨⟨soln, w1⟩, hmv, h3⟩ := h2
    rw [except_bind_ok] at h3
    obtain ⟨⟨elemRes, w3⟩, hcf, h4⟩ := h3
    have hknotg : ∀ k ∈ guess.map Prod.fst, k.1 ≠ g := by
      intro k hk
      rw [List.mem_map] at hk
      obtain ⟨p, hp, hpk⟩ := hk
      rw [← hpk]
      exact hkeyne fsr guess hgen p hp
    have hfsP : ∀ f ∈ fsr,
        keyPres (fun w => w.nodeAt g = some nd ∧ worldSafe g w)
          (guess.map Prod.fst) f := by
      intro f hf
      obtain ⟨i, j, rfl⟩ := (generate_system_inv fuel st fsr guess hgen).2 f hf
      exact closureFor_keyPres g (some nd) fuel i j _ hknotg
    have hP0 : (worldOf st).nodeAt g = some nd ∧ worldSafe g (worldOf st) :=
      ⟨by rw [worldOf_nodeAt]; exact hnode, worldSafe_worldOf g st hsafeNodes⟩
    obtain ⟨hP1, hkeys1⟩ := mvnr_preserve
      (fun w => w.nodeAt g = some nd ∧ worldSafe g w) (guess.map Prod.fst)
      fsr hfsP 1000 guess (1 / 10000) (worldOf st) soln w1 rfl hP0 hmv
    have hsolnne : ∀ p ∈ soln, p.1.1 ≠ g := by
      intro p hp
      refine hknotg p.1 ?_
      rw [← hkeys1]
      exact List.mem_map_of_mem Prod.fst hp
    obtain ⟨hP2a, hP2b⟩ := applySolution_preserve g (some nd) soln w1
      hsolnne hP1.1 hP1.2
    obtain ⟨hP3a, hP3b⟩ := collectFluxes_preserve g (some nd) fuel
      st.elements 0 (applySolution soln w1) elemRes w3 hP2b hsafeElems
      hP2a hcf
    injection h4 with h5
    simp only [Prod.mk.injEq] at h5
    rw [← h5.2]
    exact hP3a

section ConcreteEvaluation

/- Core marks the `Rat` field operations `@[irreducible]`; the concrete
evaluations below re-enable definitional reduction for them so that
`decide` and `rfl` can run the embedded code on the witness inputs. -/
attribute [local semireducible] Rat.add Rat.mul Rat.inv Rat.sub

/-- C7 counterexample: for `f(x) = 1/2 − x/100` at guess `0` with margin `1`
and limit `1`, the residual `1/2` is within the margin and the Newton step
is `−50`, whose absolute value exceeds the margin — yet `newton_raphson`
returns the current guess `0`, because the source compares the signed step
(`delta <= margin`), not its absolute value. -/
theorem c7_counterexample :
    (|(1 : ℚ)/2| ≤ 1 ∧ ¬(|(-50 : ℚ)| ≤ 1))
  ∧ exG 0 = .ok (1/2)
  ∧ ((1 : ℚ)/2) / (((1/2 - _DX_/100) - 1/2) / _DX_) = -50
  ∧ newton_raphson exG 0 1 1 = .ok 0 := by
  refine ⟨⟨by decide, by decide⟩, rfl, by decide, rfl⟩

/-- C7 witness: the scalar-step theorem applied to `f(x) = x − 2` at the
root `x = 2`, where both margin checks pass and the solver returns the
guess. -/
theorem c7_scalar_newton_step_witness :
    newton_raphson (fun x => .ok (x - 2)) 2 1 6 = .ok 2 :=
  (c7_scalar_newton_step (fun x => .ok (x - 2)) 2 1 0 (1 / 1000) 5
    (by decide) (by rfl) (by rfl)).1 ⟨by decide, by decide⟩

/-- C6 witness: the guard theorem applied at `margin = −1`, where both
solvers report `NegativeMargin`. -/
theorem c6_entry_error_guards_witness :
    newton_raphson (fun x => .ok x) 0 (-1) 5 = .error .negativeMargin ∧
    multivariate_newton_raphson ([] : List (ResFn Nat Unit)) [] (-1) 5 ()
      = .error .negativeMargin :=
  (c6_entry_error_guards (fun x => .ok x) ([] : List (ResFn Nat Unit)) 0 []
    (-1) 5 ()).1 (by decide)

/-- C1 counterexample: for the one-variable system `f(x) = x − 1/2` at guess
`1` with `margin = 1/4` and `limit = 1`, the iteration measures
`error = Σfᵢ(X)² = 1/4` and `Σdeltaⱼ² = 1/4`, so both of the claim's
sum-of-squares measures are within the margin and the claim predicts the
call returns the current `X`. The code instead compares the Euclidean norm
`sqrt(1/4) = 1/2 > 1/4`, applies the update and exhausts the iteration
limit. -/
theorem c1_counterexample :
    mvnrErrChange [exF] [((0 : Nat), (1 : ℚ))] ()
      = .ok (1/4, 1/4, ⟨1, 1, [1/2]⟩, [(0, 1)], ())
  ∧ ((1 : ℚ)/4 ≤ 1/4 ∧ (1 : ℚ)/4 ≤ 1/4)
  ∧ multivariate_newton_raphson [exF] [((0 : Nat), (1 : ℚ))] (1/4) 1 ()
      = .error .reachedIterationLimit :=
  ⟨rfl, ⟨by decide, by decide⟩, rfl⟩

/-- C1 witness: the iteration theorem applied to the one-variable system
`f(x) = x − 1` at its root, where both convergence measures are zero and the
solver returns the current guess. -/
theorem c1_mvnr_iteration_witness :
    multivariate_newton_raphson [exRoot] [((0 : Nat), (1 : ℚ))] (1/100) 1 ()
      = .ok ([(0, 1)], ()) :=
  (c1_mvnr_iteration [exRoot] [((0 : Nat), (1 : ℚ))] (1/100) 0 ()
    0 0 ⟨1, 1, [0]⟩ [(0, 1)] () (by decide) (by decide) (by rfl)).2.1
    ⟨by decide, by decide⟩

/-- C3 witness: the proportional rule on nodes with potentials `[5]` and
`[2]` and gain `[3]` — the returned flux is `(5 − 2) * 3 = 9`. -/
theorem c3_normal_flux_witness :
    ∃ v, get_flux 1 w3 e3 = .ok (v, w3) ∧ v.length = 1 ∧
      ∀ k, k < 1 →
        v.getD k 0
          = ((⟨[5], [], [], false⟩ : GenericNode).potential.getD k 0
              - (⟨[2], [], [], false⟩ : GenericNode).potential.getD k 0) * e3.gain.headD 0 :=
  c3_normal_flux 0 w3 e3 ⟨[5], [], [], false⟩ ⟨[2], [], [], false⟩ 1
    rfl rfl rfl rfl rfl (by decide)

/-- C4 witness: the observed rule driving the output node with delta `[3]`
from input potential `[2]` — the output potential becomes `[5]` and the
result is the negated discrepancy of node 1 in the updated world. -/
theorem c4_observe_flux_witness :
    (w4.setPotential 1 [5]).nodeAt 1 = some ⟨[5], [], [], false⟩
  ∧ get_flux 2 w4 e4
      = (get_flux_discrepancy 1 (w4.setPotential 1 [5]) 1).map
          (fun r => (vecScale (-1) r.1, r.2)) :=
  (c4_observe_flux 1 w4 e4 ⟨[2], [], [], false⟩ ⟨[5], [], [], false⟩
    rfl rfl rfl).1 rfl [5] (by rfl)

/-- C8 witness: on a world whose node 0 is dropped, `try_new` leaves the
world unchanged and `get_flux` fails with the flux-calculation error. -/
theorem c8_dropped_node_witness :
    (try_new [1] 0 1 .normal_flux false true true wD).2 = wD
  ∧ get_flux 1 wD eD = .error .nodeRefsAlreadyDropped :=
  ⟨(c8_dropped_node [1] 0 1 .normal_flux false true true wD 0 eD).2.1
      (Or.inl rfl),
   (c8_dropped_node [1] 0 1 .normal_flux false true true wD 0 eD).2.2
      (Or.inl rfl)⟩

/-- C8 counterexample: `get_flux` on an element whose endpoint was dropped
fails, but with the `FluxCalculationError::NodeRefsAlreadyDropped` value —
a distinct typed error from the `DroppedNodeError` the claim names (which
is what `try_new` returns). -/
theorem c8_counterexample :
    get_flux 1 wD eD = .error .nodeRefsAlreadyDropped
  ∧ Err.nodeRefsAlreadyDropped ≠ Err.droppedNode
  ∧ (try_new [1] 0 1 .normal_flux false true true wD).1 = .error .droppedNode :=
  ⟨rfl, by decide, rfl⟩

/-- C5 witness: in the two-node witness study with node 0 grounded, the
grounding equations hold and a full `solve` run returns successfully with
node 0 untouched. -/
theorem c5_grounded_node_witness :
    (ground_node stW 0).nodes.get? 0
      = some { n0W with potential := List.replicate n0W.potential.length 0,
                        is_locked := true }
  ∧ ∃ res w', solve 10 stW = .ok (res, w') ∧ w'.nodeAt 0 = some n0W := by
  have h := c5_grounded_node 10 stW 0 n0W rfl rfl
    (by decide) (by decide)
  exact ⟨h.1 stW n0W rfl, _, _, rfl, h.2.2 _ _ rfl⟩

/-- C9 witness: grounding free node 1 of the witness study zeroes its
one-component potential and locks it. -/
theorem c9_fresh_node_and_grounding_witness :
    (ground_node stW 1).nodes.get? 1
      = some { n1W with potential := List.replicate n1W.potential.length 0,
                        is_locked := true } :=
  c9_fresh_node_and_grounding.2 stW 1 n1W rfl

/-- C9 counterexample: a node's potential can be set to `[1, 1]` through
`set_node_potential`, making the dimension of a study whose first node it
is equal to 2 — but `GenericNode::new` still returns potential `[1]` of
length 1, not the all-ones vector of length `d = 2`. -/
theorem c9_counterexample :
    (set_node_potential (⟨[some GenericNode.new]⟩ : World) 0 [1, 1]).2
      = ⟨[some ⟨[1, 1], [], [], false⟩]⟩
  ∧ studyNumComponents ⟨[], [⟨[1, 1], [], [], false⟩]⟩ = .ok 2
  ∧ GenericNode.new.potential ≠ List.replicate 2 (1 : ℚ)
  ∧ GenericNode.new.potential.length = 1 :=
  ⟨rfl, rfl, by decide, rfl⟩

end ConcreteEvaluation

end Ngineer
